import Mathlib

/-!
Shallow embedding of the SM4 block cipher and its SM4-GCM mode from
`src/Project1_SM4` (sm4.h, sm4_ttable.cpp, sm4_aesni.cpp, sm4_modern.cpp,
sm4_gcm.cpp).  Machine integers are modelled as `Nat` with explicit
reduction `% 2 ^ 32` (for `uint32_t`) and `% 256` (for `uint8_t`) wherever
the C++ type system performs a truncation.  Byte buffers are `List Nat`.

The translation unit defining the shared primitives (`SBOX`, `FK`, `CK`,
`sbox`, `leftRotate`, `linearTransform`, `linearTransformPrime`) is not
part of the source tree; those definitions are modelled from the spec
(sections 4.1 and 4.2), with the constant tables pinned by the spec's
known-answer vector (section 6).
-/

namespace SM4

/-- Modelled from the spec: the fixed 256-entry byte substitution table
(`substitute`), declared `extern const uint8_t SBOX[256]` in sm4.h; its
defining translation unit is absent from src/.  The values are the fixed
SM4 permutation, pinned by the spec's known-answer test vector. -/
def SBOX : List Nat := [
  0xd6, 0x90, 0xe9, 0xfe, 0xcc, 0xe1, 0x3d, 0xb7, 0x16, 0xb6, 0x14, 0xc2, 0x28, 0xfb, 0x2c, 0x05,
  0x2b, 0x67, 0x9a, 0x76, 0x2a, 0xbe, 0x04, 0xc3, 0xaa, 0x44, 0x13, 0x26, 0x49, 0x86, 0x06, 0x99,
  0x9c, 0x42, 0x50, 0xf4, 0x91, 0xef, 0x98, 0x7a, 0x33, 0x54, 0x0b, 0x43, 0xed, 0xcf, 0xac, 0x62,
  0xe4, 0xb3, 0x1c, 0xa9, 0xc9, 0x08, 0xe8, 0x95, 0x80, 0xdf, 0x94, 0xfa, 0x75, 0x8f, 0x3f, 0xa6,
  0x47, 0x07, 0xa7, 0xfc, 0xf3, 0x73, 0x17, 0xba, 0x83, 0x59, 0x3c, 0x19, 0xe6, 0x85, 0x4f, 0xa8,
  0x68, 0x6b, 0x81, 0xb2, 0x71, 0x64, 0xda, 0x8b, 0xf8, 0xeb, 0x0f, 0x4b, 0x70, 0x56, 0x9d, 0x35,
  0x1e, 0x24, 0x0e, 0x5e, 0x63, 0x58, 0xd1, 0xa2, 0x25, 0x22, 0x7c, 0x3b, 0x01, 0x21, 0x78, 0x87,
  0xd4, 0x00, 0x46, 0x57, 0x9f, 0xd3, 0x27, 0x52, 0x4c, 0x36, 0x02, 0xe7, 0xa0, 0xc4, 0xc8, 0x9e,
  0xea, 0xbf, 0x8a, 0xd2, 0x40, 0xc7, 0x38, 0xb5, 0xa3, 0xf7, 0xf2, 0xce, 0xf9, 0x61, 0x15, 0xa1,
  0xe0, 0xae, 0x5d, 0xa4, 0x9b, 0x34, 0x1a, 0x55, 0xad, 0x93, 0x32, 0x30, 0xf5, 0x8c, 0xb1, 0xe3,
  0x1d, 0xf6, 0xe2, 0x2e, 0x82, 0x66, 0xca, 0x60, 0xc0, 0x29, 0x23, 0xab, 0x0d, 0x53, 0x4e, 0x6f,
  0xd5, 0xdb, 0x37, 0x45, 0xde, 0xfd, 0x8e, 0x2f, 0x03, 0xff, 0x6a, 0x72, 0x6d, 0x6c, 0x5b, 0x51,
  0x8d, 0x1b, 0xaf, 0x92, 0xbb, 0xdd, 0xbc, 0x7f, 0x11, 0xd9, 0x5c, 0x41, 0x1f, 0x10, 0x5a, 0xd8,
  0x0a, 0xc1, 0x31, 0x88, 0xa5, 0xcd, 0x7b, 0xbd, 0x2d, 0x74, 0xd0, 0x12, 0xb8, 0xe5, 0xb4, 0xb0,
  0x89, 0x69, 0x97, 0x4a, 0x0c, 0x96, 0x77, 0x7e, 0x65, 0xb9, 0xf1, 0x09, 0xc5, 0x6e, 0xc6, 0x84,
  0x18, 0xf0, 0x7d, 0xec, 0x3a, 0xdc, 0x4d, 0x20, 0x79, 0xee, 0x5f, 0x3e, 0xd7, 0xcb, 0x39, 0x48]

/-- Modelled from the spec: the fixed 4-word system parameter `FK`
(spec 4.2 "XOR each with a fixed 4-word system parameter"); its defining
translation unit is absent from src/.  Values pinned by the known-answer
vector. -/
def FK : List Nat := [0xa3b1bac6, 0x56aa3350, 0x677d9197, 0xb27022dc]

/-- Modelled from the spec: the fixed 32-entry round-constant table `CK`
(spec 4.2); its defining translation unit is absent from src/.  Values
pinned by the known-answer vector. -/
def CK : List Nat := [
  0x00070e15, 0x1c232a31, 0x383f464d, 0x545b6269,
  0x70777e85, 0x8c939aa1, 0xa8afb6bd, 0xc4cbd2d9,
  0xe0e7eef5, 0xfc030a11, 0x181f262d, 0x343b4249,
  0x50575e65, 0x6c737a81, 0x888f969d, 0xa4abb2b9,
  0xc0c7ced5, 0xdce3eaf1, 0xf8ff060d, 0x141b2229,
  0x30373e45, 0x4c535a61, 0x686f767d, 0x848b9299,
  0xa0a7aeb5, 0xbcc3cad1, 0xd8dfe6ed, 0xf4fb0209,
  0x10171e25, 0x2c333a41, 0x484f565d, 0x646b7279]

/-- Modelled from the spec: `substitute(byte) -> byte`, a table lookup in
the fixed S-box (spec 4.1); declared in sm4.h as `uint8_t sbox(uint8_t)`,
defining translation unit absent from src/. -/
def sbox (b : Nat) : Nat := SBOX.getD b 0

/-- Modelled from the spec: `rotateLeft(word, bits)` — circular left shift
on a 32-bit value (spec 4.1); declared in sm4.h as
`uint32_t leftRotate(uint32_t, int)`, defining translation unit absent
from src/.  The two `% 2 ^ 32` reductions model the `uint32_t` type of the
operand and of the shifted intermediate. -/
def leftRotate (value : Nat) (bits : Nat) : Nat :=
  ((value <<< bits) % 2 ^ 32) ||| ((value % 2 ^ 32) >>> (32 - bits))

/-- Modelled from the spec: `linearTransform(word) = word ⊕ rotl(word,2) ⊕
rotl(word,10) ⊕ rotl(word,18) ⊕ rotl(word,24)` (spec 4.1); defining
translation unit absent from src/.  The same formula appears inline in
sm4_modern.cpp. -/
def linearTransform (input : Nat) : Nat :=
  (input % 2 ^ 32) ^^^ leftRotate input 2 ^^^ leftRotate input 10 ^^^
    leftRotate input 18 ^^^ leftRotate input 24

/-- Modelled from the spec: `linearTransformPrime(word) = word ⊕
rotl(word,13) ⊕ rotl(word,23)` (spec 4.1); defining translation unit
absent from src/. -/
def linearTransformPrime (input : Nat) : Nat :=
  (input % 2 ^ 32) ^^^ leftRotate input 13 ^^^ leftRotate input 23

/-- Big-endian packing of four bytes into a 32-bit word, as done by the
`(uint32_t)p[4i] << 24 | ...` conversions at the top of every
`encrypt`/`decrypt`/`keyExpansion` in the source.  The `% 256` reductions
model the `uint8_t` type of the inputs. -/
def toWord (a b c d : Nat) : Nat :=
  ((a % 256) <<< 24) ||| ((b % 256) <<< 16) ||| ((c % 256) <<< 8) ||| (d % 256)

/-- Big-endian serialization of a 32-bit word into four bytes, as done by
the `static_cast<uint8_t>(Y[i] >> 24)` stores at the bottom of every
`encrypt`/`decrypt` in the source. -/
def fromWord (w : Nat) : List Nat :=
  [(w >>> 24) % 256, (w >>> 16) % 256, (w >>> 8) % 256, w % 256]

/-- Per-byte application of the S-box to a 32-bit word: the
`bytes[j] = sbox(bytes[j])` block (via `reinterpret_cast`) of
sm4_aesni.cpp / sm4_modern.cpp / the shared `keyExpansion`.  All four
bytes are substituted in place, so the result is independent of the byte
iteration order; it is written here big-endian first. -/
def substituteWord (w : Nat) : Nat :=
  (sbox ((w >>> 24) % 256) <<< 24) ||| (sbox ((w >>> 16) % 256) <<< 16) |||
    (sbox ((w >>> 8) % 256) <<< 8) ||| sbox (w % 256)

/-- The four-word working state `uint32_t X[4]` of the round loops. -/
structure St where
  x0 : Nat
  x1 : Nat
  x2 : Nat
  x3 : Nat

/-- One round of the 32-round loop shared by every backend:
`temp = X[1] ^ X[2] ^ X[3] ^ rk; temp = F(temp); newX = X[0] ^ temp;`
followed by the window shift, with `F` the backend's round function. -/
def roundOnce (F : Nat → Nat) (X : St) (rk : Nat) : St :=
  ⟨X.x1, X.x2, X.x3, X.x0 ^^^ F (X.x1 ^^^ X.x2 ^^^ X.x3 ^^^ rk)⟩

/-- The `for i` loop over the round keys. -/
def runRounds (F : Nat → Nat) (rks : List Nat) (X : St) : St :=
  rks.foldl (roundOnce F) X

/-- Loading a 16-byte block into the four-word state (big-endian). -/
def loadBlock (p : List Nat) : St :=
  ⟨toWord (p.getD 0 0) (p.getD 1 0) (p.getD 2 0) (p.getD 3 0),
   toWord (p.getD 4 0) (p.getD 5 0) (p.getD 6 0) (p.getD 7 0),
   toWord (p.getD 8 0) (p.getD 9 0) (p.getD 10 0) (p.getD 11 0),
   toWord (p.getD 12 0) (p.getD 13 0) (p.getD 14 0) (p.getD 15 0)⟩

/-- The final reversal `Y = {X[3], X[2], X[1], X[0]}` followed by the
big-endian byte serialization. -/
def storeBlock (X : St) : List Nat :=
  fromWord X.x3 ++ fromWord X.x2 ++ fromWord X.x1 ++ fromWord X.x0

/-- The complete block transform shared by every backend: load the block,
run the 32 rounds with round function `F` over the given round-key list,
reverse the state and serialize. -/
def cipher (F : Nat → Nat) (rks : List Nat) (input : List Nat) : List Nat :=
  storeBlock (runRounds F rks (loadBlock input))

/-- The key schedule `keyExpansion`, textually identical in
sm4_ttable.cpp, sm4_aesni.cpp and sm4_modern.cpp: split the key into four
big-endian words, XOR with `FK`, then 32 rounds of
`rk[i] = K0 ^ linearTransformPrime(substitute-each-byte(K1 ^ K2 ^ K3 ^ CK[i]))`
with the rolling window update. -/
def keyExpansion (key : List Nat) : List Nat :=
  let K : St :=
    ⟨toWord (key.getD 0 0) (key.getD 1 0) (key.getD 2 0) (key.getD 3 0) ^^^ FK.getD 0 0,
     toWord (key.getD 4 0) (key.getD 5 0) (key.getD 6 0) (key.getD 7 0) ^^^ FK.getD 1 0,
     toWord (key.getD 8 0) (key.getD 9 0) (key.getD 10 0) (key.getD 11 0) ^^^ FK.getD 2 0,
     toWord (key.getD 12 0) (key.getD 13 0) (key.getD 14 0) (key.getD 15 0) ^^^ FK.getD 3 0⟩
  (CK.foldl (fun (st : St × List Nat) ck =>
      let temp := linearTransformPrime (substituteWord (st.1.x1 ^^^ st.1.x2 ^^^ st.1.x3 ^^^ ck))
      let rk := st.1.x0 ^^^ temp
      (⟨st.1.x1, st.1.x2, st.1.x3, rk⟩, st.2 ++ [rk]))
    (K, [])).2

namespace TTable

/-- `initializeTables`: `T0[i] = linearTransform(sbox(i) << 24)`
(sm4_ttable.cpp lines 16-30). -/
def T0 : List Nat := (List.range 256).map fun i => linearTransform (sbox i <<< 24)

/-- `initializeTables`: `T1[i] = linearTransform(sbox(i) << 16)`. -/
def T1 : List Nat := (List.range 256).map fun i => linearTransform (sbox i <<< 16)

/-- `initializeTables`: `T2[i] = linearTransform(sbox(i) << 8)`. -/
def T2 : List Nat := (List.range 256).map fun i => linearTransform (sbox i <<< 8)

/-- `initializeTables`: `T3[i] = linearTransform(sbox(i))`. -/
def T3 : List Nat := (List.range 256).map fun i => linearTransform (sbox i)

/-- `TTable::feistelFunction` (sm4_ttable.cpp lines 47-54): the fused
round function `T0[b0] ^ T1[b1] ^ T2[b2] ^ T3[b3]` over the four
big-endian bytes of the input word. -/
def feistelFunction (input : Nat) : Nat :=
  T0.getD ((input >>> 24) % 256) 0 ^^^ T1.getD ((input >>> 16) % 256) 0 ^^^
    T2.getD ((input >>> 8) % 256) 0 ^^^ T3.getD (input % 256) 0

/-- `TTable::encrypt` (sm4_ttable.cpp lines 100-133). -/
def encrypt (rks : List Nat) (plaintext : List Nat) : List Nat :=
  cipher feistelFunction rks plaintext

/-- `TTable::decrypt` (sm4_ttable.cpp lines 135-168): the same rounds with
the round keys used in reverse order (`for i = 31 down to 0`). -/
def decrypt (rks : List Nat) (ciphertext : List Nat) : List Nat :=
  cipher feistelFunction rks.reverse ciphertext

end TTable

namespace AESNI

/-- The scalar round function used by `AESNI::encrypt`/`decrypt`
(sm4_aesni.cpp lines 103-108): substitute every byte of `temp` in place,
then apply `linearTransform`. -/
def feistelScalar (temp : Nat) : Nat := linearTransform (substituteWord temp)

/-- `AESNI::encrypt` (sm4_aesni.cpp lines 87-128). -/
def encrypt (rks : List Nat) (plaintext : List Nat) : List Nat :=
  cipher feistelScalar rks plaintext

/-- `AESNI::decrypt` (sm4_aesni.cpp lines 130-171): reversed round keys. -/
def decrypt (rks : List Nat) (ciphertext : List Nat) : List Nat :=
  cipher feistelScalar rks.reverse ciphertext

end AESNI

namespace ModernISA

/-- `ModernISA::feistelFunctionAVX` (sm4_modern.cpp lines 66-86): extract
the scalar word, look up the S-box on each byte starting from the least
significant (`b0 = sbox(scalar_input & 0xFF)` ...), reassemble
`sbox_result = b0 | (b1 << 8) | (b2 << 16) | (b3 << 24)`, then the inlined
linear transform `s ^ rotl(s,2) ^ rotl(s,10) ^ rotl(s,18) ^ rotl(s,24)`
written with explicit shift-or pairs on `uint32_t`. -/
def feistelFunctionAVX (input : Nat) : Nat :=
  let b0 := sbox (input &&& 0xFF)
  let b1 := sbox ((input >>> 8) &&& 0xFF)
  let b2 := sbox ((input >>> 16) &&& 0xFF)
  let b3 := sbox ((input >>> 24) &&& 0xFF)
  let s := b0 ||| (b1 <<< 8) ||| (b2 <<< 16) ||| (b3 <<< 24)
  s ^^^ (((s <<< 2) % 2 ^ 32) ||| (s >>> 30)) ^^^ (((s <<< 10) % 2 ^ 32) ||| (s >>> 22)) ^^^
    (((s <<< 18) % 2 ^ 32) ||| (s >>> 14)) ^^^ (((s <<< 24) % 2 ^ 32) ||| (s >>> 8))

/-- The per-round function of `ModernISA::encrypt`/`decrypt`
(sm4_modern.cpp lines 147-160): when `avxSupported` holds, route through
`feistelFunctionAVX` (the `_mm_set1_epi32`/`_mm_extract_epi32` pair is the
identity on the 32-bit value); otherwise substitute each byte in place and
apply `linearTransform`. -/
def feistelDispatch (avxSupported : Bool) (temp : Nat) : Nat :=
  if avxSupported then feistelFunctionAVX temp
  else linearTransform (substituteWord temp)

/-- `ModernISA::encrypt` (sm4_modern.cpp lines 132-180). -/
def encrypt (avxSupported : Bool) (rks : List Nat) (plaintext : List Nat) : List Nat :=
  cipher (feistelDispatch avxSupported) rks plaintext

/-- `ModernISA::decrypt` (sm4_modern.cpp lines 182-228): reversed keys. -/
def decrypt (avxSupported : Bool) (rks : List Nat) (ciphertext : List Nat) : List Nat :=
  cipher (feistelDispatch avxSupported) rks.reverse ciphertext

/-- One group iteration of the 4-block batch loop in
`ModernISA::encryptBlocks` (sm4_modern.cpp lines 234-289): four
independent block states advanced in lockstep through all 32 rounds; the
inlined "fast F function" in the batch loop body is byte-for-byte the
computation of `feistelFunctionAVX`. -/
def encrypt4 (rks : List Nat) (p0 p1 p2 p3 : List Nat) : List (List Nat) :=
  let s0 := loadBlock p0
  let s1 := loadBlock p1
  let s2 := loadBlock p2
  let s3 := loadBlock p3
  let f := rks.foldl (fun (q : St × St × St × St) rk =>
      (roundOnce feistelFunctionAVX q.1 rk, roundOnce feistelFunctionAVX q.2.1 rk,
       roundOnce feistelFunctionAVX q.2.2.1 rk, roundOnce feistelFunctionAVX q.2.2.2 rk))
    (s0, s1, s2, s3)
  [storeBlock f.1, storeBlock f.2.1, storeBlock f.2.2.1, storeBlock f.2.2.2]

/-- The decrypt analogue of `encrypt4` (sm4_modern.cpp lines 309-364):
identical lockstep rounds with the round keys reversed. -/
def decrypt4 (rks : List Nat) (c0 c1 c2 c3 : List Nat) : List (List Nat) :=
  let s0 := loadBlock c0
  let s1 := loadBlock c1
  let s2 := loadBlock c2
  let s3 := loadBlock c3
  let f := rks.reverse.foldl (fun (q : St × St × St × St) rk =>
      (roundOnce feistelFunctionAVX q.1 rk, roundOnce feistelFunctionAVX q.2.1 rk,
       roundOnce feistelFunctionAVX q.2.2.1 rk, roundOnce feistelFunctionAVX q.2.2.2 rk))
    (s0, s1, s2, s3)
  [storeBlock f.1, storeBlock f.2.1, storeBlock f.2.2.1, storeBlock f.2.2.2]

/-- The loop structure of `ModernISA::encryptBlocks` in its SIMD branch:
groups of four blocks go through `encrypt4`; the trailing
`blockCount % 4` blocks go through the single-block `encrypt` (whose
capability flag is set, since this branch requires it). -/
def encryptBlocksLoop (rks : List Nat) : List (List Nat) → List (List Nat)
  | p0 :: p1 :: p2 :: p3 :: rest => encrypt4 rks p0 p1 p2 p3 ++ encryptBlocksLoop rks rest
  | rest => rest.map (encrypt true rks)

/-- The loop structure of `ModernISA::decryptBlocks` in its SIMD branch. -/
def decryptBlocksLoop (rks : List Nat) : List (List Nat) → List (List Nat)
  | c0 :: c1 :: c2 :: c3 :: rest => decrypt4 rks c0 c1 c2 c3 ++ decryptBlocksLoop rks rest
  | rest => rest.map (decrypt true rks)

/-- `ModernISA::encryptBlocks` (sm4_modern.cpp lines 231-303): with the
capability flag set and at least 4 blocks, the batched loop; otherwise
every block through the single-block path.  Blocks are modelled as a list
of 16-byte lists (the source indexes a flat buffer at `(b + block) * 16`). -/
def encryptBlocks (avxSupported : Bool) (rks : List Nat) (blocks : List (List Nat)) :
    List (List Nat) :=
  if avxSupported ∧ 4 ≤ blocks.length then encryptBlocksLoop rks blocks
  else blocks.map (encrypt avxSupported rks)

/-- `ModernISA::decryptBlocks` (sm4_modern.cpp lines 306-378). -/
def decryptBlocks (avxSupported : Bool) (rks : List Nat) (blocks : List (List Nat)) :
    List (List Nat) :=
  if avxSupported ∧ 4 ≤ blocks.length then decryptBlocksLoop rks blocks
  else blocks.map (decrypt avxSupported rks)

end ModernISA

/-- Reversal of the four-word state, as in `Y = {X[3], X[2], X[1], X[0]}`. -/
def rev4 (X : St) : St := ⟨X.x3, X.x2, X.x1, X.x0⟩

/-- Componentwise 32-bit bound on the four-word state. -/
def stLt (X : St) : Prop := X.x0 < 2 ^ 32 ∧ X.x1 < 2 ^ 32 ∧ X.x2 < 2 ^ 32 ∧ X.x3 < 2 ^ 32

end SM4

/-- The session state of the `SM4_GCM` class (sm4.h lines 135-161): the
round-key schedule of the owned `SM4::TTable sm4` member, the two 64-bit
halves of the GCM subkey `H`, and the `iv` and `aad` byte buffers. -/
structure SM4_GCM where
  roundKeys : List Nat
  H0 : Nat
  H1 : Nat
  iv : List Nat
  aad : List Nat

namespace SM4_GCM

/-- `SM4_GCM::clear` (sm4_gcm.cpp lines 11-16): `std::fill` overwrites the
round keys, both halves of `H`, and the CONTENTS of the iv and aad vectors
with zero; the vector lengths are unchanged. -/
def clear (s : SM4_GCM) : SM4_GCM :=
  ⟨s.roundKeys.map fun _ => 0, 0, 0, s.iv.map fun _ => 0, s.aad.map fun _ => 0⟩

/-- `SM4_GCM::generateSubkey` (sm4_gcm.cpp lines 23-37): encrypt the
all-zero block and fold the 16 result bytes into two 64-bit words
`H[0] = (H[0] << 8) | h_bytes[i]`.  The accumulators never exceed
`2 ^ 64`, so the `uint64_t` arithmetic never wraps. -/
def generateSubkey (rks : List Nat) : Nat × Nat :=
  let h_bytes := SM4.TTable.encrypt rks (List.replicate 16 0)
  ((List.range 8).foldl (fun acc i => (acc <<< 8) ||| h_bytes.getD i 0) 0,
   (List.range 8).foldl (fun acc i => (acc <<< 8) ||| h_bytes.getD (i + 8) 0) 0)

/-- `SM4_GCM::setKey` (sm4_gcm.cpp lines 18-21): run the key schedule of
the owned cipher, then derive the subkey. -/
def setKey (s : SM4_GCM) (key : List Nat) : SM4_GCM :=
  let rks := SM4.keyExpansion key
  let H := generateSubkey rks
  ⟨rks, H.1, H.2, s.iv, s.aad⟩

/-- `SM4_GCM::setIV` (sm4_gcm.cpp lines 39-43): `iv.clear(); iv.resize();
std::copy` — the stored buffer is replaced by the new contents. -/
def setIV (s : SM4_GCM) (iv_data : List Nat) : SM4_GCM :=
  ⟨s.roundKeys, s.H0, s.H1, iv_data, s.aad⟩

/-- `SM4_GCM::setAAD` (sm4_gcm.cpp lines 45-49): replaces the stored AAD
buffer. -/
def setAAD (s : SM4_GCM) (aad_data : List Nat) : SM4_GCM :=
  ⟨s.roundKeys, s.H0, s.H1, s.iv, aad_data⟩

/-- Byte-wise XOR of two buffers (`z[j] ^= v[j]` loops). -/
def vxor (a b : List Nat) : List Nat := List.zipWith (fun x y => x ^^^ y) a b

/-- The inner `v = v >> 1` loop of `SM4_GCM::gfmul` (sm4_gcm.cpp lines
68-74): shift the 16-byte buffer right one bit, byte 0 holding the most
significant bits, threading the carry; returns the shifted buffer and the
final carry (the bit shifted out of the last byte). -/
def shiftRightOne (carry : Nat) : List Nat → List Nat × Nat
  | [] => ([], carry)
  | b :: rest =>
    let r := shiftRightOne (b &&& 1) rest
    (((b >>> 1) ||| (carry <<< 7)) :: r.1, r.2)

/-- One multiply-by-x step of `SM4_GCM::gfmul` (sm4_gcm.cpp lines 68-79):
shift `v` right one bit and, if a 1 bit was shifted out, XOR the top byte
with the reduction constant `0xE1`. -/
def vstep (v : List Nat) : List Nat :=
  let r := shiftRightOne 0 v
  if r.2 ≠ 0 then
    match r.1 with
    | [] => []
    | b :: rest => (b ^^^ 0xE1) :: rest
  else r.1

/-- `SM4_GCM::gfmul` (sm4_gcm.cpp lines 51-83): bit-serial GF(2^128)
multiplication.  Iterate the 128 bits of `x` most-significant-bit first
(`byte_idx = i / 8`, `bit_idx = 7 - i % 8`); when the bit is set, XOR the
accumulator with the running copy `v` of `y`; after every bit, advance `v`
by one shift-reduce step. -/
def gfmul (x y : List Nat) : List Nat :=
  ((List.range 128).foldl (fun (zv : List Nat × List Nat) i =>
      let z := if x.getD (i / 8) 0 &&& (1 <<< (7 - i % 8)) ≠ 0 then vxor zv.1 zv.2 else zv.1
      (z, vstep zv.2))
    (List.replicate 16 0, y)).1

/-- The byte serialization of `H` done at the top of `SM4_GCM::ghash`
(sm4_gcm.cpp lines 90-93). -/
def hBytes (H0 H1 : Nat) : List Nat :=
  [(H0 >>> 56) % 256, (H0 >>> 48) % 256, (H0 >>> 40) % 256, (H0 >>> 32) % 256,
   (H0 >>> 24) % 256, (H0 >>> 16) % 256, (H0 >>> 8) % 256, H0 % 256,
   (H1 >>> 56) % 256, (H1 >>> 48) % 256, (H1 >>> 40) % 256, (H1 >>> 32) % 256,
   (H1 >>> 24) % 256, (H1 >>> 16) % 256, (H1 >>> 8) % 256, H1 % 256]

/-- The block loop of `SM4_GCM::ghash` (sm4_gcm.cpp lines 95-121): XOR
each 16-byte block of the data into the accumulator then multiply by `H`;
a trailing short block is zero-padded on the right; no block is processed
for empty data (so `ghash` of the empty string is the zero accumulator).
The fuel argument only bounds the number of loop iterations and is
initialized to the data length, which always suffices, since every
iteration consumes at least one byte. -/
def ghashBlocks (h : List Nat) : Nat → List Nat → List Nat → List Nat
  | _, y, [] => y
  | 0, y, _ :: _ => y
  | fuel + 1, y, a :: rest =>
    let data := a :: rest
    let block := data.take 16 ++ List.replicate (16 - data.length) 0
    ghashBlocks h fuel (gfmul (vxor y block) h) (data.drop 16)

/-- `SM4_GCM::ghash` (sm4_gcm.cpp lines 85-124). -/
def ghash (H0 H1 : Nat) (data : List Nat) : List Nat :=
  ghashBlocks (hBytes H0 H1) data.length (List.replicate 16 0) data

/-- `SM4_GCM::incrementCounter` (sm4_gcm.cpp lines 126-139): read bytes
12-15 as a big-endian 32-bit value, increment it (wrapping at `2 ^ 32`),
write it back. -/
def incrementCounter (counter : List Nat) : List Nat :=
  let low := (counter.getD 12 0 <<< 24) ||| (counter.getD 13 0 <<< 16) |||
    (counter.getD 14 0 <<< 8) ||| counter.getD 15 0
  let low2 := (low + 1) % 2 ^ 32
  (((counter.set 12 ((low2 >>> 24) % 256)).set 13 ((low2 >>> 16) % 256)).set 14
    ((low2 >>> 8) % 256)).set 15 (low2 % 256)

/-- The counter block `J0` computed at the top of `SM4_GCM::encrypt` and
`SM4_GCM::decrypt` (sm4_gcm.cpp lines 147-156 and 230-237): a 12-byte IV
is extended with the 4-byte big-endian counter value 1; any other length
goes through GHASH. -/
def j0Of (s : SM4_GCM) : List Nat :=
  if s.iv.length = 12 then s.iv ++ [0, 0, 0, 1]
  else ghash s.H0 s.H1 s.iv

/-- `tag_mask = sm4.encrypt(j0)` (sm4_gcm.cpp lines 159-160 and 240-241). -/
def tagMask (s : SM4_GCM) : List Nat := SM4.TTable.encrypt s.roundKeys (j0Of s)

/-- The CTR keystream: the counter starts at `J0` and is incremented
BEFORE each block encryption (sm4_gcm.cpp lines 170-189); `n` counter
blocks are generated. -/
def ctrBlocks (rks : List Nat) (counter : List Nat) : Nat → List Nat
  | 0 => []
  | n + 1 =>
    let c := incrementCounter counter
    SM4.TTable.encrypt rks c ++ ctrBlocks rks c n

/-- The keystream consumed for a payload of `n` bytes: `n / 16` full
blocks plus one more when `n % 16 > 0`, truncation to `n` bytes happening
at the XOR (`(n + 15) / 16` equals that block count). -/
def keystream (s : SM4_GCM) (n : Nat) : List Nat :=
  ctrBlocks s.roundKeys (j0Of s) ((n + 15) / 16)

/-- The big-endian 64-bit length encoding used for the GHASH tail
(sm4_gcm.cpp lines 204-210); the value lives in a `uint64_t`. -/
def encode64 (n : Nat) : List Nat :=
  let m := n % 2 ^ 64
  [(m >>> 56) % 256, (m >>> 48) % 256, (m >>> 40) % 256, (m >>> 32) % 256,
   (m >>> 24) % 256, (m >>> 16) % 256, (m >>> 8) % 256, m % 256]

/-- The authentication input `AAD || ciphertext || encode64(aadBits) ||
encode64(ctBits)` (sm4_gcm.cpp lines 192-210 and 244-259). -/
def authData (s : SM4_GCM) (ct : List Nat) : List Nat :=
  s.aad ++ ct ++ encode64 (s.aad.length * 8) ++ encode64 (ct.length * 8)

/-- The full 16-byte tag `ghash(authData) ^ tag_mask` computed by
`SM4_GCM::encrypt` (lines 212-219, before truncation) and as
`expected_tag` by `SM4_GCM::decrypt` (lines 261-267). -/
def expectedTag (s : SM4_GCM) (ct : List Nat) : List Nat :=
  vxor (ghash s.H0 s.H1 (authData s ct)) (tagMask s)

/-- `SM4_GCM::encrypt` (sm4_gcm.cpp lines 141-222): fails (returns
`false`) when no IV is set; otherwise produces the CTR ciphertext and the
first `min(tagLen, 16)` tag bytes. -/
def encrypt (s : SM4_GCM) (plaintext : List Nat) (tagLen : Nat) :
    Option (List Nat × List Nat) :=
  if s.iv = [] then none
  else
    let ct := List.zipWith (fun a b => a ^^^ b) plaintext (keystream s plaintext.length)
    some (ct, (expectedTag s ct).take (min tagLen 16))

/-- `SM4_GCM::decrypt` (sm4_gcm.cpp lines 224-307): fails when no IV is
set; recomputes the expected tag from the given ciphertext and stored AAD,
compares the first `min(tagLen, 16)` bytes with the supplied tag, and only
on success runs the CTR decryption; on mismatch it returns the failure
without producing any plaintext. -/
def decrypt (s : SM4_GCM) (ciphertext : List Nat) (tag : List Nat) (tagLen : Nat) :
    Option (List Nat) :=
  if s.iv = [] then none
  else if (List.range (min tagLen 16)).all
      (fun i => (expectedTag s ciphertext).getD i 0 == tag.getD i 0) then
    some (List.zipWith (fun a b => a ^^^ b) ciphertext (keystream s ciphertext.length))
  else none

/-- The all-zero 16-byte accumulator `uint8_t z[16] = {0}`. -/
def zero16 : List Nat := List.replicate 16 0

/-- XOR accumulation of a list of 16-byte buffers. -/
def bigXor (l : List (List Nat)) : List Nat := l.foldr vxor zero16

/-- The 16-byte buffer whose only set bit is bit `j` in gfmul's
MSB-first numbering (bit 7 of byte 0 is bit 0). -/
def unitVec (j : Nat) : List Nat := (List.replicate 16 0).set (j / 8) (1 <<< (7 - j % 8))

/-- The buffer with only the topmost bit set: the value of `unitVec 0`. -/
def e0 : List Nat := 0x80 :: List.replicate 15 0

/-- The contribution of bit `i` of `x` to the gfmul accumulator: the
`i`-times-shifted copy of `y` when the bit is set, else zero. -/
def mulTerm (x y : List Nat) (i : Nat) : List Nat :=
  if x.getD (i / 8) 0 &&& (1 <<< (7 - i % 8)) ≠ 0 then vstep^[i] y else zero16

end SM4_GCM

namespace SM4

theorem and_eq_zero_of_mod_lt {x y n : Nat} (h1 : x % 2 ^ n = 0) (h2 : y < 2 ^ n) :
    x &&& y = 0 := by
  apply Nat.eq_of_testBit_eq
  intro i
  rw [Nat.testBit_and, Nat.zero_testBit]
  by_cases hi : i < n
  · have hx : x.testBit i = false := by
      have h := congrArg (fun z => Nat.testBit z i) h1
      simpa [Nat.testBit_mod_two_pow, hi] using h
    simp [hx]
  · have hy : y.testBit i = false :=
      Nat.testBit_lt_two_pow (lt_of_lt_of_le h2 (Nat.pow_le_pow_right (by norm_num) (le_of_not_lt hi)))
    simp [hy]

theorem or_eq_xor_of_and_eq_zero {x y : Nat} (h : x &&& y = 0) : x ||| y = x ^^^ y := by
  apply Nat.eq_of_testBit_eq
  intro i
  have hb := congrArg (fun z => Nat.testBit z i) h
  simp only [Nat.testBit_and, Nat.zero_testBit] at hb
  rw [Nat.testBit_or, Nat.testBit_xor]
  cases hx : x.testBit i <;> cases hy : y.testBit i <;> simp_all

theorem shiftLeft_xor (x y n : Nat) : (x ^^^ y) <<< n = (x <<< n) ^^^ (y <<< n) := by
  apply Nat.eq_of_testBit_eq
  intro i
  simp only [Nat.testBit_shiftLeft, Nat.testBit_xor]
  by_cases h : n ≤ i <;> simp [h]

theorem shiftRight_xor (x y n : Nat) : (x ^^^ y) >>> n = (x >>> n) ^^^ (y >>> n) := by
  apply Nat.eq_of_testBit_eq
  intro i
  simp [Nat.testBit_shiftRight, Nat.testBit_xor]

theorem mod_two_pow_xor (x y n : Nat) : (x ^^^ y) % 2 ^ n = (x % 2 ^ n) ^^^ (y % 2 ^ n) := by
  apply Nat.eq_of_testBit_eq
  intro i
  simp only [Nat.testBit_mod_two_pow, Nat.testBit_xor]
  by_cases h : i < n <;> simp [h]

theorem shiftRight_lt_two_pow {x m k : Nat} (h : x < 2 ^ m) : x >>> k < 2 ^ (m - k) := by
  rw [Nat.shiftRight_eq_div_pow]
  rw [Nat.div_lt_iff_lt_mul (Nat.pos_pow_of_pos k (by norm_num))]
  calc x < 2 ^ m := h
    _ ≤ 2 ^ (m - k) * 2 ^ k := by
        rw [← pow_add]
        exact Nat.pow_le_pow_right (by norm_num) (by omega)

theorem shiftLeft_mod_low {x n m : Nat} (h : n ≤ m) : ((x <<< n) % 2 ^ m) % 2 ^ n = 0 := by
  rw [Nat.shiftLeft_eq]
  have hm : (2 : Nat) ^ m = 2 ^ (m - n) * 2 ^ n := by
    rw [← pow_add]
    congr 1
    omega
  rw [hm, Nat.mul_mod_mul_right, Nat.mul_mod_left]

theorem leftRotate_lt (x n : Nat) : leftRotate x n < 2 ^ 32 := by
  apply Nat.or_lt_two_pow
  · exact Nat.mod_lt _ (by norm_num)
  · calc (x % 2 ^ 32) >>> (32 - n) < 2 ^ (32 - (32 - n)) :=
        shiftRight_lt_two_pow (Nat.mod_lt _ (by norm_num))
      _ ≤ 2 ^ 32 := Nat.pow_le_pow_right (by norm_num) (by omega)

theorem xor_swap_mid (a b c d : Nat) : (a ^^^ b) ^^^ (c ^^^ d) = (a ^^^ c) ^^^ (b ^^^ d) := by
  apply Nat.eq_of_testBit_eq
  intro i
  simp [Nat.testBit_xor, Bool.xor_assoc, Bool.xor_comm, Bool.xor_left_comm]

theorem xor_left_comm (a b c : Nat) : a ^^^ (b ^^^ c) = b ^^^ (a ^^^ c) := by
  apply Nat.eq_of_testBit_eq
  intro i
  simp [Nat.testBit_xor, Bool.xor_assoc, Bool.xor_comm, Bool.xor_left_comm]

theorem leftRotate_xor {n : Nat} (hn : n ≤ 32) (x y : Nat) :
    leftRotate (x ^^^ y) n = leftRotate x n ^^^ leftRotate y n := by
  have hB : ∀ z : Nat, (z % 2 ^ 32) >>> (32 - n) < 2 ^ n := by
    intro z
    have h := shiftRight_lt_two_pow (x := z % 2 ^ 32) (k := 32 - n) (Nat.mod_lt _ (by norm_num))
    have h32 : 32 - (32 - n) = n := by omega
    rwa [h32] at h
  have hA : ∀ z : Nat, ((z <<< n) % 2 ^ 32) % 2 ^ n = 0 := fun z => shiftLeft_mod_low hn
  unfold leftRotate
  rw [shiftLeft_xor, mod_two_pow_xor, mod_two_pow_xor x y 32, shiftRight_xor]
  have hAxy : (((x <<< n) % 2 ^ 32) ^^^ ((y <<< n) % 2 ^ 32)) % 2 ^ n = 0 := by
    rw [mod_two_pow_xor, hA, hA]
    rfl
  rw [or_eq_xor_of_and_eq_zero (and_eq_zero_of_mod_lt hAxy (Nat.xor_lt_two_pow (hB x) (hB y)))]
  rw [or_eq_xor_of_and_eq_zero (and_eq_zero_of_mod_lt (hA x) (hB x))]
  rw [or_eq_xor_of_and_eq_zero (and_eq_zero_of_mod_lt (hA y) (hB y))]
  exact xor_swap_mid _ _ _ _

theorem linearTransform_xor (x y : Nat) :
    linearTransform (x ^^^ y) = linearTransform x ^^^ linearTransform y := by
  unfold linearTransform
  rw [mod_two_pow_xor, leftRotate_xor (by norm_num) x y, leftRotate_xor (by norm_num) x y,
    leftRotate_xor (by norm_num) x y, leftRotate_xor (by norm_num) x y]
  rw [xor_swap_mid (x % 2 ^ 32) (y % 2 ^ 32) (leftRotate x 2) (leftRotate y 2)]
  rw [xor_swap_mid ((x % 2 ^ 32) ^^^ leftRotate x 2) ((y % 2 ^ 32) ^^^ leftRotate y 2)
    (leftRotate x 10) (leftRotate y 10)]
  rw [xor_swap_mid (((x % 2 ^ 32) ^^^ leftRotate x 2) ^^^ leftRotate x 10)
    (((y % 2 ^ 32) ^^^ leftRotate y 2) ^^^ leftRotate y 10) (leftRotate x 18) (leftRotate y 18)]
  rw [xor_swap_mid ((((x % 2 ^ 32) ^^^ leftRotate x 2) ^^^ leftRotate x 10) ^^^ leftRotate x 18)
    ((((y % 2 ^ 32) ^^^ leftRotate y 2) ^^^ leftRotate y 10) ^^^ leftRotate y 18)
    (leftRotate x 24) (leftRotate y 24)]

theorem linearTransform_lt (x : Nat) : linearTransform x < 2 ^ 32 := by
  unfold linearTransform
  exact Nat.xor_lt_two_pow (Nat.xor_lt_two_pow (Nat.xor_lt_two_pow (Nat.xor_lt_two_pow
    (Nat.mod_lt _ (by norm_num)) (leftRotate_lt x 2)) (leftRotate_lt x 10))
    (leftRotate_lt x 18)) (leftRotate_lt x 24)

theorem linearTransformPrime_lt (x : Nat) : linearTransformPrime x < 2 ^ 32 := by
  unfold linearTransformPrime
  exact Nat.xor_lt_two_pow (Nat.xor_lt_two_pow (Nat.mod_lt _ (by norm_num))
    (leftRotate_lt x 13)) (leftRotate_lt x 23)

set_option maxRecDepth 4096 in
theorem sbox_lt_of_lt : ∀ b, b < 256 → sbox b < 256 := by decide

theorem substituteWord_lt (w : Nat) : substituteWord w < 2 ^ 32 := by
  unfold substituteWord
  have h24 : sbox ((w >>> 24) % 256) <<< 24 < 2 ^ 32 := by
    rw [Nat.shiftLeft_eq]
    have := sbox_lt_of_lt _ (Nat.mod_lt (w >>> 24) (by norm_num))
    omega
  have h16 : sbox ((w >>> 16) % 256) <<< 16 < 2 ^ 32 := by
    rw [Nat.shiftLeft_eq]
    have := sbox_lt_of_lt _ (Nat.mod_lt (w >>> 16) (by norm_num))
    omega
  have h8 : sbox ((w >>> 8) % 256) <<< 8 < 2 ^ 32 := by
    rw [Nat.shiftLeft_eq]
    have := sbox_lt_of_lt _ (Nat.mod_lt (w >>> 8) (by norm_num))
    omega
  have h0 : sbox (w % 256) < 2 ^ 32 := by
    have := sbox_lt_of_lt _ (Nat.mod_lt w (by norm_num))
    omega
  exact Nat.or_lt_two_pow (Nat.or_lt_two_pow (Nat.or_lt_two_pow h24 h16) h8) h0

theorem toWord_lt (a b c d : Nat) : toWord a b c d < 2 ^ 32 := by
  unfold toWord
  have h24 : (a % 256) <<< 24 < 2 ^ 32 := by
    rw [Nat.shiftLeft_eq]
    have := Nat.mod_lt a (y := 256) (by norm_num)
    omega
  have h16 : (b % 256) <<< 16 < 2 ^ 32 := by
    rw [Nat.shiftLeft_eq]
    have := Nat.mod_lt b (y := 256) (by norm_num)
    omega
  have h8 : (c % 256) <<< 8 < 2 ^ 32 := by
    rw [Nat.shiftLeft_eq]
    have := Nat.mod_lt c (y := 256) (by norm_num)
    omega
  have h0 : d % 256 < 2 ^ 32 := by
    have := Nat.mod_lt d (y := 256) (by norm_num)
    omega
  exact Nat.or_lt_two_pow (Nat.or_lt_two_pow (Nat.or_lt_two_pow h24 h16) h8) h0

end SM4

namespace SM4

theorem shiftLeft_mod_self {x n k : Nat} (h : k ≤ n) : (x <<< n) % 2 ^ k = 0 := by
  rw [Nat.shiftLeft_eq]
  have hm : (2 : Nat) ^ n = 2 ^ (n - k) * 2 ^ k := by
    rw [← pow_add]
    congr 1
    omega
  rw [hm, ← Nat.mul_assoc, Nat.mul_mod_left]

theorem or_and_distrib_right (a b c : Nat) : (a ||| b) &&& c = (a &&& c) ||| (b &&& c) := by
  apply Nat.eq_of_testBit_eq
  intro i
  simp only [Nat.testBit_and, Nat.testBit_or]
  cases a.testBit i <;> cases b.testBit i <;> cases c.testBit i <;> rfl

theorem getD_map_range {f : Nat → Nat} {b : Nat} (h : b < 256) :
    ((List.range 256).map f).getD b 0 = f b := by
  rw [List.getD_eq_getElem?_getD, List.getElem?_eq_getElem (by simpa using h)]
  simp

theorem shiftLeft_lt_of_lt {x n m : Nat} (h : x < 2 ^ m) : x <<< n < 2 ^ (m + n) := by
  rw [Nat.shiftLeft_eq, pow_add]
  exact Nat.mul_lt_mul_of_lt_of_le h (le_refl _) (Nat.pos_pow_of_pos n (by norm_num))

theorem substituteWord_eq_xor (w : Nat) :
    substituteWord w = (sbox ((w >>> 24) % 256) <<< 24) ^^^ (sbox ((w >>> 16) % 256) <<< 16) ^^^
      (sbox ((w >>> 8) % 256) <<< 8) ^^^ sbox (w % 256) := by
  unfold substituteWord
  have s24 := sbox_lt_of_lt _ (Nat.mod_lt (w >>> 24) (y := 256) (by norm_num))
  have s16 := sbox_lt_of_lt _ (Nat.mod_lt (w >>> 16) (y := 256) (by norm_num))
  have s8 := sbox_lt_of_lt _ (Nat.mod_lt (w >>> 8) (y := 256) (by norm_num))
  have s0 := sbox_lt_of_lt _ (Nat.mod_lt w (y := 256) (by norm_num))
  have h16 : sbox ((w >>> 16) % 256) <<< 16 < 2 ^ 24 := by
    have := shiftLeft_lt_of_lt (n := 16) (m := 8) s16
    simpa using this
  have h8 : sbox ((w >>> 8) % 256) <<< 8 < 2 ^ 16 := by
    have := shiftLeft_lt_of_lt (n := 8) (m := 8) s8
    simpa using this
  have h0 : sbox (w % 256) < 2 ^ 8 := s0
  have d1 : (sbox ((w >>> 24) % 256) <<< 24) &&& (sbox ((w >>> 16) % 256) <<< 16) = 0 :=
    and_eq_zero_of_mod_lt (shiftLeft_mod_self (by norm_num)) h16
  rw [or_eq_xor_of_and_eq_zero d1]
  have d2 : ((sbox ((w >>> 24) % 256) <<< 24) ^^^ (sbox ((w >>> 16) % 256) <<< 16)) &&&
      (sbox ((w >>> 8) % 256) <<< 8) = 0 := by
    rw [Nat.and_xor_distrib_right,
      and_eq_zero_of_mod_lt (shiftLeft_mod_self (by norm_num)) h8,
      and_eq_zero_of_mod_lt (shiftLeft_mod_self (by norm_num)) h8]
    rfl
  rw [or_eq_xor_of_and_eq_zero d2]
  have d3 : ((sbox ((w >>> 24) % 256) <<< 24) ^^^ (sbox ((w >>> 16) % 256) <<< 16) ^^^
      (sbox ((w >>> 8) % 256) <<< 8)) &&& sbox (w % 256) = 0 := by
    rw [Nat.and_xor_distrib_right, Nat.and_xor_distrib_right,
      and_eq_zero_of_mod_lt (shiftLeft_mod_self (by norm_num)) h0,
      and_eq_zero_of_mod_lt (shiftLeft_mod_self (by norm_num)) h0,
      and_eq_zero_of_mod_lt (shiftLeft_mod_self (by norm_num)) h0]
    rfl
  rw [or_eq_xor_of_and_eq_zero d3]

end SM4

namespace SM4

theorem feistelFunction_eq_scalar (w : Nat) :
    TTable.feistelFunction w = linearTransform (substituteWord w) := by
  unfold TTable.feistelFunction TTable.T0 TTable.T1 TTable.T2 TTable.T3
  rw [getD_map_range (Nat.mod_lt (w >>> 24) (y := 256) (by norm_num)),
    getD_map_range (Nat.mod_lt (w >>> 16) (y := 256) (by norm_num)),
    getD_map_range (Nat.mod_lt (w >>> 8) (y := 256) (by norm_num)),
    getD_map_range (Nat.mod_lt w (y := 256) (by norm_num))]
  rw [substituteWord_eq_xor, linearTransform_xor, linearTransform_xor, linearTransform_xor]

theorem feistelFunctionAVX_eq_scalar (w : Nat) :
    ModernISA.feistelFunctionAVX w = linearTransform (substituteWord w) := by
  simp only [ModernISA.feistelFunctionAVX]
  have hmask : ∀ z : Nat, z &&& 0xFF = z % 256 := by
    intro z
    have h := Nat.and_pow_two_sub_one_eq_mod z 8
    norm_num at h
    exact h
  rw [hmask, hmask, hmask, hmask]
  have hs : sbox (w % 256) ||| (sbox ((w >>> 8) % 256) <<< 8) ||| (sbox ((w >>> 16) % 256) <<< 16) |||
      (sbox ((w >>> 24) % 256) <<< 24) = substituteWord w := by
    unfold substituteWord
    apply Nat.eq_of_testBit_eq
    intro i
    simp only [Nat.testBit_or]
    cases (sbox (w % 256)).testBit i <;>
      cases ((sbox ((w >>> 8) % 256) <<< 8)).testBit i <;>
      cases ((sbox ((w >>> 16) % 256) <<< 16)).testBit i <;>
      cases ((sbox ((w >>> 24) % 256) <<< 24)).testBit i <;> rfl
  rw [hs]
  have hlt := substituteWord_lt w
  unfold linearTransform leftRotate
  rw [Nat.mod_eq_of_lt hlt]

theorem feistelDispatch_eq_scalar (avx : Bool) (w : Nat) :
    ModernISA.feistelDispatch avx w = AESNI.feistelScalar w := by
  cases avx
  · rfl
  · show ModernISA.feistelFunctionAVX w = AESNI.feistelScalar w
    rw [feistelFunctionAVX_eq_scalar]
    rfl

end SM4

namespace SM4

theorem toWord_fromWord {w : Nat} (h : w < 2 ^ 32) :
    toWord ((w >>> 24) % 256) ((w >>> 16) % 256) ((w >>> 8) % 256) (w % 256) = w := by
  unfold toWord
  have h256 : (256 : Nat) = 2 ^ 8 := by norm_num
  rw [h256]
  apply Nat.eq_of_testBit_eq
  intro i
  simp only [Nat.testBit_or, Nat.testBit_shiftLeft, Nat.testBit_mod_two_pow,
    Nat.testBit_shiftRight]
  by_cases h1 : i < 8
  · have e1 : ¬ (24 ≤ i) := by omega
    have e2 : ¬ (16 ≤ i) := by omega
    have e3 : ¬ (8 ≤ i) := by omega
    simp [e1, e2, e3, h1]
  · by_cases h2 : i < 16
    · have e1 : ¬ (24 ≤ i) := by omega
      have e2 : ¬ (16 ≤ i) := by omega
      have e3 : (8 ≤ i) := by omega
      have e4 : i - 8 < 8 := by omega
      have e5 : 8 + (i - 8) = i := by omega
      simp [e1, e2, e3, e4, e5, h1]
    · by_cases h3 : i < 24
      · have e1 : ¬ (24 ≤ i) := by omega
        have e2 : (16 ≤ i) := by omega
        have e4 : i - 16 < 8 := by omega
        have e5 : 16 + (i - 16) = i := by omega
        have e6 : ¬ (i - 8 < 8) := by omega
        simp [e1, e2, e4, e5, e6, h1]
      · by_cases h4 : i < 32
        · have e1 : (24 ≤ i) := by omega
          have e4 : i - 24 < 8 := by omega
          have e5 : 24 + (i - 24) = i := by omega
          have e6 : ¬ (i - 8 < 8) := by omega
          have e7 : ¬ (i - 16 < 8) := by omega
          simp [e1, e4, e5, e6, e7, h1]
        · have e4 : ¬ (i - 24 < 8) := by omega
          have e6 : ¬ (i - 8 < 8) := by omega
          have e7 : ¬ (i - 16 < 8) := by omega
          have e8 : ¬ (i < 8) := by omega
          have hw : w.testBit i = false :=
            Nat.testBit_lt_two_pow (lt_of_lt_of_le h (Nat.pow_le_pow_right (by norm_num) (by omega)))
          simp [e4, e6, e7, e8, hw]

end SM4

namespace SM4

theorem ext24 (a b c d : Nat) : (toWord a b c d >>> 24) % 256 = a % 256 := by
  unfold toWord
  have h256 : (256 : Nat) = 2 ^ 8 := by norm_num
  rw [h256]
  apply Nat.eq_of_testBit_eq
  intro i
  simp only [Nat.testBit_mod_two_pow, Nat.testBit_shiftRight, Nat.testBit_or,
    Nat.testBit_shiftLeft]
  by_cases h1 : i < 8
  · have e1 : (24 ≤ 24 + i) := by omega
    have e2 : 24 + i - 24 = i := by omega
    have e3 : ¬ (24 + i - 16 < 8) := by omega
    have e4 : ¬ (24 + i - 8 < 8) := by omega
    have e5 : ¬ (24 + i < 8) := by omega
    have e6 : (16 ≤ 24 + i) := by omega
    have e7 : (8 ≤ 24 + i) := by omega
    simp [e1, e2, e3, e4, e5, e6, e7, h1]
  · simp [h1]

theorem ext16 (a b c d : Nat) : (toWord a b c d >>> 16) % 256 = b % 256 := by
  unfold toWord
  have h256 : (256 : Nat) = 2 ^ 8 := by norm_num
  rw [h256]
  apply Nat.eq_of_testBit_eq
  intro i
  simp only [Nat.testBit_mod_two_pow, Nat.testBit_shiftRight, Nat.testBit_or,
    Nat.testBit_shiftLeft]
  by_cases h1 : i < 8
  · have e1 : ¬ (24 ≤ 16 + i) := by omega
    have e2 : (16 ≤ 16 + i) := by omega
    have e3 : 16 + i - 16 = i := by omega
    have e4 : ¬ (16 + i - 8 < 8) := by omega
    have e5 : ¬ (16 + i < 8) := by omega
    have e6 : (8 ≤ 16 + i) := by omega
    simp [e1, e2, e3, e4, e5, e6, h1]
  · simp [h1]

theorem ext8 (a b c d : Nat) : (toWord a b c d >>> 8) % 256 = c % 256 := by
  unfold toWord
  have h256 : (256 : Nat) = 2 ^ 8 := by norm_num
  rw [h256]
  apply Nat.eq_of_testBit_eq
  intro i
  simp only [Nat.testBit_mod_two_pow, Nat.testBit_shiftRight, Nat.testBit_or,
    Nat.testBit_shiftLeft]
  by_cases h1 : i < 8
  · have e1 : ¬ (24 ≤ 8 + i) := by omega
    have e2 : ¬ (16 ≤ 8 + i) := by omega
    have e3 : (8 ≤ 8 + i) := by omega
    have e4 : 8 + i - 8 = i := by omega
    have e5 : ¬ (8 + i < 8) := by omega
    simp [e1, e2, e3, e4, e5, h1]
  · simp [h1]

theorem ext0 (a b c d : Nat) : toWord a b c d % 256 = d % 256 := by
  unfold toWord
  have h256 : (256 : Nat) = 2 ^ 8 := by norm_num
  rw [h256]
  apply Nat.eq_of_testBit_eq
  intro i
  simp only [Nat.testBit_mod_two_pow, Nat.testBit_or, Nat.testBit_shiftLeft]
  by_cases h1 : i < 8
  · have e1 : ¬ (24 ≤ i) := by omega
    have e2 : ¬ (16 ≤ i) := by omega
    have e3 : ¬ (8 ≤ i) := by omega
    simp [e1, e2, e3, h1]
  · simp [h1]

theorem fromWord_toWord {a b c d : Nat} (ha : a < 256) (hb : b < 256) (hc : c < 256)
    (hd : d < 256) : fromWord (toWord a b c d) = [a, b, c, d] := by
  unfold fromWord
  rw [ext24, ext16, ext8, ext0, Nat.mod_eq_of_lt ha, Nat.mod_eq_of_lt hb,
    Nat.mod_eq_of_lt hc, Nat.mod_eq_of_lt hd]

end SM4

namespace SM4

theorem xor3_rev (a b c k : Nat) : a ^^^ b ^^^ c ^^^ k = c ^^^ b ^^^ a ^^^ k := by
  apply Nat.eq_of_testBit_eq
  intro i
  simp [Nat.testBit_xor, Bool.xor_assoc, Bool.xor_comm, Bool.xor_left_comm]

theorem roundOnce_invol (F : Nat → Nat) (X : St) (k : Nat) :
    roundOnce F (rev4 (roundOnce F X k)) k = rev4 X := by
  cases X with
  | mk x0 x1 x2 x3 =>
    simp only [roundOnce, rev4, St.mk.injEq]
    refine ⟨trivial, trivial, trivial, ?_⟩
    rw [xor3_rev x3 x2 x1 k, Nat.xor_assoc, Nat.xor_self, Nat.xor_zero]

theorem runRounds_cons (F : Nat → Nat) (k : Nat) (rks : List Nat) (X : St) :
    runRounds F (k :: rks) X = runRounds F rks (roundOnce F X k) := rfl

theorem runRounds_append (F : Nat → Nat) (l1 l2 : List Nat) (X : St) :
    runRounds F (l1 ++ l2) X = runRounds F l2 (runRounds F l1 X) :=
  List.foldl_append _ _ _ _

theorem runRounds_reverse (F : Nat → Nat) (rks : List Nat) (X : St) :
    runRounds F rks.reverse (rev4 (runRounds F rks X)) = rev4 X := by
  induction rks generalizing X with
  | nil => rfl
  | cons k rks ih =>
    rw [List.reverse_cons, runRounds_cons, runRounds_append, ih (roundOnce F X k)]
    show roundOnce F (rev4 (roundOnce F X k)) k = rev4 X
    exact roundOnce_invol F X k

theorem roundOnce_lt {F : Nat → Nat} (hF : ∀ w, F w < 2 ^ 32) {X : St} (hX : stLt X)
    (k : Nat) : stLt (roundOnce F X k) := by
  obtain ⟨h0, h1, h2, h3⟩ := hX
  exact ⟨h1, h2, h3, Nat.xor_lt_two_pow h0 (hF _)⟩

theorem runRounds_lt {F : Nat → Nat} (hF : ∀ w, F w < 2 ^ 32) (rks : List Nat) {X : St}
    (hX : stLt X) : stLt (runRounds F rks X) := by
  induction rks generalizing X with
  | nil => exact hX
  | cons k rks ih => exact ih (roundOnce_lt hF hX k)

theorem loadBlock_storeBlock {X : St} (hX : stLt X) : loadBlock (storeBlock X) = rev4 X := by
  obtain ⟨h0, h1, h2, h3⟩ := hX
  cases X with
  | mk x0 x1 x2 x3 =>
    simp only [storeBlock, fromWord, loadBlock, rev4, List.cons_append, List.nil_append]
    simp only [List.getD_cons_zero, List.getD_cons_succ]
    rw [toWord_fromWord h3, toWord_fromWord h2, toWord_fromWord h1, toWord_fromWord h0]

end SM4

namespace SM4

theorem feistelFunction_lt (w : Nat) : TTable.feistelFunction w < 2 ^ 32 := by
  rw [feistelFunction_eq_scalar]
  exact linearTransform_lt _

theorem feistelScalar_lt (w : Nat) : AESNI.feistelScalar w < 2 ^ 32 :=
  linearTransform_lt _

theorem feistelDispatch_lt (avx : Bool) (w : Nat) :
    ModernISA.feistelDispatch avx w < 2 ^ 32 := by
  rw [feistelDispatch_eq_scalar]
  exact linearTransform_lt _

theorem feistelFunctionAVX_lt (w : Nat) : ModernISA.feistelFunctionAVX w < 2 ^ 32 := by
  rw [feistelFunctionAVX_eq_scalar]
  exact linearTransform_lt _

theorem cipher_roundtrip {F : Nat → Nat} (hF : ∀ w, F w < 2 ^ 32)
    (rks : List Nat) (p0 p1 p2 p3 p4 p5 p6 p7 p8 p9 p10 p11 p12 p13 p14 p15 : Nat)
    (hb : ∀ x ∈ [p0, p1, p2, p3, p4, p5, p6, p7, p8, p9, p10, p11, p12, p13, p14, p15],
      x < 256) :
    cipher F rks.reverse
      (cipher F rks [p0, p1, p2, p3, p4, p5, p6, p7, p8, p9, p10, p11, p12, p13, p14, p15]) =
      [p0, p1, p2, p3, p4, p5, p6, p7, p8, p9, p10, p11, p12, p13, p14, p15] := by
  have hp0 := hb p0 (by simp)
  have hp1 := hb p1 (by simp)
  have hp2 := hb p2 (by simp)
  have hp3 := hb p3 (by simp)
  have hp4 := hb p4 (by simp)
  have hp5 := hb p5 (by simp)
  have hp6 := hb p6 (by simp)
  have hp7 := hb p7 (by simp)
  have hp8 := hb p8 (by simp)
  have hp9 := hb p9 (by simp)
  have hp10 := hb p10 (by simp)
  have hp11 := hb p11 (by simp)
  have hp12 := hb p12 (by simp)
  have hp13 := hb p13 (by simp)
  have hp14 := hb p14 (by simp)
  have hp15 := hb p15 (by simp)
  have hX0 : loadBlock [p0, p1, p2, p3, p4, p5, p6, p7, p8, p9, p10, p11, p12, p13, p14, p15] =
      ⟨toWord p0 p1 p2 p3, toWord p4 p5 p6 p7, toWord p8 p9 p10 p11, toWord p12 p13 p14 p15⟩ :=
    rfl
  have hlt0 : stLt ⟨toWord p0 p1 p2 p3, toWord p4 p5 p6 p7, toWord p8 p9 p10 p11,
      toWord p12 p13 p14 p15⟩ :=
    ⟨toWord_lt _ _ _ _, toWord_lt _ _ _ _, toWord_lt _ _ _ _, toWord_lt _ _ _ _⟩
  unfold cipher
  rw [hX0, loadBlock_storeBlock (runRounds_lt hF rks hlt0), runRounds_reverse]
  simp only [rev4, storeBlock]
  rw [fromWord_toWord hp0 hp1 hp2 hp3, fromWord_toWord hp4 hp5 hp6 hp7,
    fromWord_toWord hp8 hp9 hp10 hp11, fromWord_toWord hp12 hp13 hp14 hp15]
  simp

end SM4

namespace SM4

theorem foldl_par4 (l : List Nat) (f : St → Nat → St) (a b c d : St) :
    l.foldl (fun (q : St × St × St × St) rk =>
      (f q.1 rk, f q.2.1 rk, f q.2.2.1 rk, f q.2.2.2 rk)) (a, b, c, d) =
      (l.foldl f a, l.foldl f b, l.foldl f c, l.foldl f d) := by
  induction l generalizing a b c d with
  | nil => rfl
  | cons k l ih => exact ih (f a k) (f b k) (f c k) (f d k)

theorem feistelDispatch_true : ModernISA.feistelDispatch true = ModernISA.feistelFunctionAVX :=
  funext fun _ => rfl

theorem encrypt_true_eq_cipherAVX (rks p : List Nat) :
    ModernISA.encrypt true rks p = cipher ModernISA.feistelFunctionAVX rks p := by
  unfold ModernISA.encrypt
  rw [feistelDispatch_true]

theorem decrypt_true_eq_cipherAVX (rks c : List Nat) :
    ModernISA.decrypt true rks c = cipher ModernISA.feistelFunctionAVX rks.reverse c := by
  unfold ModernISA.decrypt
  rw [feistelDispatch_true]

theorem encrypt4_eq (rks p0 p1 p2 p3 : List Nat) :
    ModernISA.encrypt4 rks p0 p1 p2 p3 =
      [ModernISA.encrypt true rks p0, ModernISA.encrypt true rks p1,
       ModernISA.encrypt true rks p2, ModernISA.encrypt true rks p3] := by
  simp only [ModernISA.encrypt4]
  rw [foldl_par4 rks (roundOnce ModernISA.feistelFunctionAVX)]
  rw [encrypt_true_eq_cipherAVX, encrypt_true_eq_cipherAVX, encrypt_true_eq_cipherAVX,
    encrypt_true_eq_cipherAVX]
  rfl

theorem decrypt4_eq (rks c0 c1 c2 c3 : List Nat) :
    ModernISA.decrypt4 rks c0 c1 c2 c3 =
      [ModernISA.decrypt true rks c0, ModernISA.decrypt true rks c1,
       ModernISA.decrypt true rks c2, ModernISA.decrypt true rks c3] := by
  simp only [ModernISA.decrypt4]
  rw [foldl_par4 rks.reverse (roundOnce ModernISA.feistelFunctionAVX)]
  rw [decrypt_true_eq_cipherAVX, decrypt_true_eq_cipherAVX, decrypt_true_eq_cipherAVX,
    decrypt_true_eq_cipherAVX]
  rfl

theorem encryptBlocksLoop_eq (rks : List Nat) (bs : List (List Nat)) :
    ModernISA.encryptBlocksLoop rks bs = bs.map (ModernISA.encrypt true rks) := by
  induction bs using ModernISA.encryptBlocksLoop.induct rks with
  | case1 p0 p1 p2 p3 rest ih =>
    rw [ModernISA.encryptBlocksLoop, encrypt4_eq, ih]
    rfl
  | case2 rest h =>
    rw [ModernISA.encryptBlocksLoop]
    exact h

theorem decryptBlocksLoop_eq (rks : List Nat) (bs : List (List Nat)) :
    ModernISA.decryptBlocksLoop rks bs = bs.map (ModernISA.decrypt true rks) := by
  induction bs using ModernISA.decryptBlocksLoop.induct rks with
  | case1 c0 c1 c2 c3 rest ih =>
    rw [ModernISA.decryptBlocksLoop, decrypt4_eq, ih]
    rfl
  | case2 rest h =>
    rw [ModernISA.decryptBlocksLoop]
    exact h

end SM4
namespace SM4_GCM

theorem storeBlock_length (X : SM4.St) : (SM4.storeBlock X).length = 16 := by
  simp [SM4.storeBlock, SM4.fromWord]

theorem ttable_encrypt_length (rks p : List Nat) : (SM4.TTable.encrypt rks p).length = 16 :=
  storeBlock_length _

theorem vxor_length (a b : List Nat) : (vxor a b).length = min a.length b.length := by
  simp [vxor]

theorem shiftRightOne_length (carry : Nat) (v : List Nat) :
    (shiftRightOne carry v).1.length = v.length := by
  induction v generalizing carry with
  | nil => rfl
  | cons b rest ih => simp [shiftRightOne, ih]

theorem vstep_length (v : List Nat) : (vstep v).length = v.length := by
  have h := shiftRightOne_length 0 v
  simp only [vstep]
  split
  · cases hvv : (shiftRightOne 0 v).1 with
    | nil => rw [hvv] at h; simpa using h
    | cons b rest =>
      rw [hvv] at h
      simpa using h
  · exact h

theorem gfmul_length (x y : List Nat) (hy : y.length = 16) : (gfmul x y).length = 16 := by
  unfold gfmul
  have main : ∀ (l : List Nat) (z v : List Nat), z.length = 16 → v.length = 16 →
      ((l.foldl (fun (zv : List Nat × List Nat) i =>
        let z := if x.getD (i / 8) 0 &&& (1 <<< (7 - i % 8)) ≠ 0 then vxor zv.1 zv.2 else zv.1
        (z, vstep zv.2)) (z, v)).1).length = 16 := by
    intro l
    induction l with
    | nil => intro z v hz _; exact hz
    | cons a l ih =>
      intro z v hz hv
      simp only [List.foldl_cons]
      apply ih
      · split
        · simp [vxor_length, hz, hv]
        · exact hz
      · rw [vstep_length, hv]
  exact main _ _ _ (by simp) hy

theorem ghashBlocks_length (h : List Nat) (hh : h.length = 16) :
    ∀ (fuel : Nat) (y data : List Nat), y.length = 16 →
      (ghashBlocks h fuel y data).length = 16 := by
  intro fuel
  induction fuel with
  | zero =>
    intro y data hy
    cases data with
    | nil => exact hy
    | cons a rest => exact hy
  | succ fuel ih =>
    intro y data hy
    cases data with
    | nil => exact hy
    | cons a rest => exact ih _ _ (gfmul_length _ _ hh)

end SM4_GCM

namespace SM4_GCM

theorem ghash_length (H0 H1 : Nat) (data : List Nat) : (ghash H0 H1 data).length = 16 :=
  ghashBlocks_length _ (by simp [hBytes]) _ _ data (by simp)

theorem tagMask_length (s : SM4_GCM) : (tagMask s).length = 16 :=
  ttable_encrypt_length _ _

theorem expectedTag_length (s : SM4_GCM) (ct : List Nat) : (expectedTag s ct).length = 16 := by
  rw [expectedTag, vxor_length, ghash_length, tagMask_length]
  rfl

theorem ctrBlocks_length (rks c : List Nat) (n : Nat) :
    (ctrBlocks rks c n).length = 16 * n := by
  induction n generalizing c with
  | zero => rfl
  | succ n ih =>
    rw [ctrBlocks]
    simp only [List.length_append, ttable_encrypt_length, ih]
    omega

theorem keystream_length (s : SM4_GCM) (n : Nat) :
    (keystream s n).length = 16 * ((n + 15) / 16) :=
  ctrBlocks_length _ _ _

theorem le_keystream_length (s : SM4_GCM) (n : Nat) : n ≤ (keystream s n).length := by
  rw [keystream_length]
  omega

theorem zipWith_xor_cancel (pt ks : List Nat) :
    List.zipWith (fun a b => a ^^^ b) (List.zipWith (fun a b => a ^^^ b) pt ks) ks =
      pt.take ks.length := by
  induction pt generalizing ks with
  | nil => simp
  | cons p pt ih =>
    cases ks with
    | nil => rfl
    | cons k ks =>
      simp only [List.zipWith_cons_cons, List.length_cons, List.take_succ_cons]
      rw [Nat.xor_assoc, Nat.xor_self, Nat.xor_zero, ih]

theorem getD_take {l : List Nat} {n i : Nat} (h : i < n) :
    (l.take n).getD i 0 = l.getD i 0 := by
  rw [List.getD_eq_getElem?_getD, List.getD_eq_getElem?_getD, List.getElem?_take_of_lt h]

end SM4_GCM

namespace SM4_GCM

theorem gcm_roundtrip (s : SM4_GCM) (pt : List Nat) (tagLen : Nat)
    (hiv : s.iv ≠ []) (htl : tagLen ≤ 16) :
    ∃ ct tag, encrypt s pt tagLen = some (ct, tag) ∧
      ct.length = pt.length ∧ tag.length = tagLen ∧
      decrypt s ct tag tagLen = some pt := by
  refine ⟨List.zipWith (fun a b => a ^^^ b) pt (keystream s pt.length),
    (expectedTag s (List.zipWith (fun a b => a ^^^ b) pt (keystream s pt.length))).take
      (min tagLen 16), ?_, ?_, ?_, ?_⟩
  · rw [encrypt, if_neg hiv]
  · rw [List.length_zipWith]
    have := le_keystream_length s pt.length
    omega
  · rw [List.length_take, expectedTag_length]
    omega
  · have hctlen : (List.zipWith (fun a b => a ^^^ b) pt (keystream s pt.length)).length =
        pt.length := by
      rw [List.length_zipWith]
      have := le_keystream_length s pt.length
      omega
    rw [decrypt, if_neg hiv, if_pos ?_]
    · rw [hctlen, zipWith_xor_cancel, List.take_of_length_le (le_keystream_length s pt.length)]
    · rw [List.all_eq_true]
      intro i hi
      rw [List.mem_range] at hi
      rw [getD_take hi]
      exact beq_self_eq_true _

end SM4_GCM

namespace SM4_GCM

theorem auth_failure (s : SM4_GCM) (ct tag : List Nat) (tagLen i : Nat) (hiv : s.iv ≠ [])
    (hi : i < min tagLen 16) (hne : (expectedTag s ct).getD i 0 ≠ tag.getD i 0) :
    decrypt s ct tag tagLen = none := by
  have hall : ¬ ((List.range (min tagLen 16)).all
      (fun i => (expectedTag s ct).getD i 0 == tag.getD i 0) = true) := by
    rw [List.all_eq_true]
    intro hp
    exact hne (by simpa using hp i (List.mem_range.mpr hi))
  rw [decrypt, if_neg hiv, if_neg hall]

theorem clear_iv (s : SM4_GCM) : (clear s).iv = List.replicate s.iv.length 0 := by
  simp [clear]

theorem clear_iv_ne_nil (s : SM4_GCM) (hiv : s.iv ≠ []) : (clear s).iv ≠ [] := by
  simp only [clear]
  simpa using hiv

theorem clear_encrypt_isSome (s : SM4_GCM) (pt : List Nat) (tagLen : Nat)
    (hiv : s.iv ≠ []) : (encrypt (clear s) pt tagLen).isSome = true := by
  rw [encrypt, if_neg (clear_iv_ne_nil s hiv)]
  rfl

theorem decrypt_tagLen_zero (s : SM4_GCM) (ct tag : List Nat) (hiv : s.iv ≠ []) :
    decrypt s ct tag 0 = some (List.zipWith (fun a b => a ^^^ b) ct (keystream s ct.length)) := by
  rw [decrypt, if_neg hiv, if_pos ?_]
  show (List.range (min 0 16)).all _ = true
  rfl

end SM4_GCM

namespace SM4_GCM

theorem vxor_comm (a b : List Nat) : vxor a b = vxor b a :=
  List.zipWith_comm_of_comm _ Nat.xor_comm a b

theorem vxor_assoc (a b c : List Nat) : vxor (vxor a b) c = vxor a (vxor b c) := by
  induction a generalizing b c with
  | nil => rfl
  | cons x a ih =>
    cases b with
    | nil => rfl
    | cons y b =>
      cases c with
      | nil => rfl
      | cons z c =>
        simp only [vxor, List.zipWith_cons_cons]
        rw [Nat.xor_assoc]
        congr 1
        exact ih b c

theorem vxor_zero_left {v : List Nat} (h : v.length = 16) : vxor zero16 v = v := by
  have main : ∀ w : List Nat, vxor (List.replicate w.length 0) w = w := by
    intro w
    induction w with
    | nil => rfl
    | cons x w ih => simp [vxor, List.replicate_succ] at ih ⊢; exact ih
  have := main v
  rwa [h] at this

theorem vxor_zero_right {v : List Nat} (h : v.length = 16) : vxor v zero16 = v := by
  rw [vxor_comm]
  exact vxor_zero_left h

theorem vxor_swap_mid (a b c d : List Nat) :
    vxor (vxor a b) (vxor c d) = vxor (vxor a c) (vxor b d) := by
  rw [vxor_assoc, vxor_assoc]
  congr 1
  rw [← vxor_assoc, ← vxor_assoc, vxor_comm b c]

theorem vxor_bytes_lt {a b : List Nat} (ha : ∀ x ∈ a, x < 256) (hb : ∀ x ∈ b, x < 256) :
    ∀ x ∈ vxor a b, x < 256 := by
  induction a generalizing b with
  | nil => simp [vxor]
  | cons p a ih =>
    cases b with
    | nil => simp [vxor]
    | cons q b =>
      intro x hx
      simp only [vxor, List.zipWith_cons_cons, List.mem_cons] at hx
      rcases hx with h | h
      · subst h
        have h1 : p < 2 ^ 8 := ha p (by simp)
        have h2 : q < 2 ^ 8 := hb q (by simp)
        exact Nat.xor_lt_two_pow h1 h2
      · exact ih (fun z hz => ha z (by simp [hz])) (fun z hz => hb z (by simp [hz])) x h

theorem bigXor_nil : bigXor [] = zero16 := rfl

theorem bigXor_cons (v : List Nat) (l : List (List Nat)) :
    bigXor (v :: l) = vxor v (bigXor l) := rfl

theorem bigXor_length {l : List (List Nat)} (h : ∀ v ∈ l, v.length = 16) :
    (bigXor l).length = 16 := by
  induction l with
  | nil => simp [bigXor, zero16]
  | cons v l ih =>
    rw [bigXor_cons, vxor_length, h v (by simp), ih (fun w hw => h w (by simp [hw]))]
    rfl

theorem bigXor_bytes_lt {l : List (List Nat)} (h : ∀ v ∈ l, ∀ x ∈ v, x < 256) :
    ∀ x ∈ bigXor l, x < 256 := by
  induction l with
  | nil => simp [bigXor, zero16]
  | cons v l ih =>
    rw [bigXor_cons]
    exact vxor_bytes_lt (h v (by simp)) (ih (fun w hw => h w (by simp [hw])))

theorem bigXor_append {l1 l2 : List (List Nat)} (h1 : ∀ v ∈ l1, v.length = 16)
    (h2 : ∀ v ∈ l2, v.length = 16) :
    bigXor (l1 ++ l2) = vxor (bigXor l1) (bigXor l2) := by
  induction l1 with
  | nil =>
    rw [List.nil_append, bigXor_nil, vxor_zero_left (bigXor_length h2)]
  | cons v l1 ih =>
    rw [List.cons_append, bigXor_cons, bigXor_cons, ih (fun w hw => h1 w (by simp [hw])),
      vxor_assoc]

end SM4_GCM

namespace SM4_GCM

theorem bigXor_map_vxor {α : Type} (l : List α) (f g : α → List Nat)
    (hf : ∀ a ∈ l, (f a).length = 16) (hg : ∀ a ∈ l, (g a).length = 16) :
    bigXor (l.map fun a => vxor (f a) (g a)) =
      vxor (bigXor (l.map f)) (bigXor (l.map g)) := by
  induction l with
  | nil =>
    simp only [List.map_nil, bigXor_nil]
    rw [vxor_zero_left (by simp [zero16])]
  | cons a l ih =>
    simp only [List.map_cons, bigXor_cons]
    rw [ih (fun b hb => hf b (by simp [hb])) (fun b hb => hg b (by simp [hb])),
      vxor_swap_mid]

theorem bigXor_all_zero {α : Type} (l : List α) :
    bigXor (l.map fun _ => zero16) = zero16 := by
  induction l with
  | nil => rfl
  | cons a l ih =>
    simp only [List.map_cons, bigXor_cons, ih]
    exact vxor_zero_left (by simp [zero16])

theorem bigXor_swap {α β : Type} (l1 : List α) (l2 : List β) (f : α → β → List Nat)
    (hf : ∀ a ∈ l1, ∀ b ∈ l2, (f a b).length = 16) :
    bigXor (l1.map fun a => bigXor (l2.map fun b => f a b)) =
      bigXor (l2.map fun b => bigXor (l1.map fun a => f a b)) := by
  induction l1 with
  | nil =>
    simp only [List.map_nil, bigXor_nil]
    exact (bigXor_all_zero l2).symm
  | cons a l1 ih =>
    simp only [List.map_cons, bigXor_cons]
    rw [ih (fun x hx => hf x (by simp [hx]))]
    exact (bigXor_map_vxor l2 (fun b => f a b) (fun b => bigXor (List.map (fun a2 => f a2 b) l1))
      (fun b hb => hf a (by simp) b hb)
      (fun b hb => bigXor_length (by
        intro v hv
        rw [List.mem_map] at hv
        obtain ⟨x, hx, rfl⟩ := hv
        exact hf x (by simp [hx]) b hb))).symm

end SM4_GCM

namespace SM4_GCM

theorem and_one_le (b : Nat) : b &&& 1 ≤ 1 := Nat.and_le_right

theorem shiftRightOne_carry_le {v : List Nat} {carry : Nat} (hc : carry ≤ 1) :
    (shiftRightOne carry v).2 ≤ 1 := by
  induction v generalizing carry with
  | nil => exact hc
  | cons b rest ih => exact ih (and_one_le b)

theorem shift_or_carry_xor {a b c1 c2 : Nat} (ha : a < 256) (hb : b < 256)
    (hc1 : c1 ≤ 1) (hc2 : c2 ≤ 1) :
    (((a ^^^ b) >>> 1) ||| ((c1 ^^^ c2) <<< 7)) =
      ((a >>> 1) ||| (c1 <<< 7)) ^^^ ((b >>> 1) ||| (c2 <<< 7)) := by
  have ha7 : a >>> 1 < 2 ^ 7 := by
    have h8 : a < 2 ^ 8 := ha
    have := SM4.shiftRight_lt_two_pow (k := 1) h8
    simpa using this
  have hb7 : b >>> 1 < 2 ^ 7 := by
    have h8 : b < 2 ^ 8 := hb
    have := SM4.shiftRight_lt_two_pow (k := 1) h8
    simpa using this
  have hd : ∀ x y : Nat, x < 2 ^ 7 → (x &&& (y <<< 7)) = 0 := by
    intro x y hx
    rw [Nat.and_comm]
    exact SM4.and_eq_zero_of_mod_lt (SM4.shiftLeft_mod_self (le_refl 7)) hx
  have hab7 : (a ^^^ b) >>> 1 < 2 ^ 7 := by
    have h8 : a ^^^ b < 2 ^ 8 := Nat.xor_lt_two_pow ha hb
    have := SM4.shiftRight_lt_two_pow (k := 1) h8
    simpa using this
  rw [SM4.or_eq_xor_of_and_eq_zero (hd _ (c1 ^^^ c2) hab7),
    SM4.or_eq_xor_of_and_eq_zero (hd _ c1 ha7),
    SM4.or_eq_xor_of_and_eq_zero (hd _ c2 hb7),
    SM4.shiftRight_xor, SM4.shiftLeft_xor]
  exact SM4.xor_swap_mid _ _ _ _

theorem shiftRightOne_linear {u : List Nat} :
    ∀ (v : List Nat) (c1 c2 : Nat), u.length = v.length →
    (∀ x ∈ u, x < 256) → (∀ x ∈ v, x < 256) → c1 ≤ 1 → c2 ≤ 1 →
    shiftRightOne (c1 ^^^ c2) (vxor u v) =
      (vxor (shiftRightOne c1 u).1 (shiftRightOne c2 v).1,
       (shiftRightOne c1 u).2 ^^^ (shiftRightOne c2 v).2) := by
  induction u with
  | nil =>
    intro v c1 c2 hlen _ _ _ _
    cases v with
    | nil => rfl
    | cons b rest => simp at hlen
  | cons a u ih =>
    intro v c1 c2 hlen hu hv hc1 hc2
    cases v with
    | nil => simp at hlen
    | cons b rest =>
      simp only [vxor, List.zipWith_cons_cons, shiftRightOne]
      rw [Nat.and_xor_distrib_right]
      have hrec := ih rest (a &&& 1) (b &&& 1) (by simpa using hlen)
        (fun x hx => hu x (by simp [hx])) (fun x hx => hv x (by simp [hx]))
        (and_one_le a) (and_one_le b)
      rw [show vxor u rest = List.zipWith (fun x y => x ^^^ y) u rest from rfl] at hrec
      rw [hrec]
      rw [shift_or_carry_xor (hu a (by simp)) (hv b (by simp)) hc1 hc2]
      rfl

end SM4_GCM

namespace SM4_GCM

theorem vstep_linear {u v : List Nat} (hul : u.length = 16) (hvl : v.length = 16)
    (hu : ∀ x ∈ u, x < 256) (hv : ∀ x ∈ v, x < 256) :
    vstep (vxor u v) = vxor (vstep u) (vstep v) := by
  have hlin := shiftRightOne_linear v 0 0 (hul.trans hvl.symm)
    hu hv (by omega) (by omega)
  have hcu : (shiftRightOne 0 u).2 ≤ 1 := shiftRightOne_carry_le (by omega)
  have hcv : (shiftRightOne 0 v).2 ≤ 1 := shiftRightOne_carry_le (by omega)
  have hulen : (shiftRightOne 0 u).1.length = 16 := by rw [shiftRightOne_length, hul]
  have hvlen : (shiftRightOne 0 v).1.length = 16 := by rw [shiftRightOne_length, hvl]
  simp only [vstep]
  simp only [Nat.xor_self] at hlin
  rw [hlin]
  obtain ⟨x, xs, hx⟩ : ∃ x xs, (shiftRightOne 0 u).1 = x :: xs := by
    cases h : (shiftRightOne 0 u).1 with
    | nil => rw [h] at hulen; simp at hulen
    | cons x xs => exact ⟨x, xs, rfl⟩
  obtain ⟨y, ys, hy⟩ : ∃ y ys, (shiftRightOne 0 v).1 = y :: ys := by
    cases h : (shiftRightOne 0 v).1 with
    | nil => rw [h] at hvlen; simp at hvlen
    | cons y ys => exact ⟨y, ys, rfl⟩
  rw [hx, hy]
  interval_cases hcu2 : (shiftRightOne 0 u).2 <;> interval_cases hcv2 : (shiftRightOne 0 v).2 <;>
    simp [vxor, Nat.xor_assoc, Nat.xor_comm, SM4.xor_left_comm]

namespace SM4_GCM

theorem shiftRightOne_bytes_lt {v : List Nat} (carry : Nat) (hc : carry ≤ 1)
    (hv : ∀ x ∈ v, x < 256) : ∀ x ∈ (shiftRightOne carry v).1, x < 256 := by
  induction v generalizing carry with
  | nil => simp [shiftRightOne]
  | cons b rest ih =>
    intro x hx
    simp only [shiftRightOne, List.mem_cons] at hx
    rcases hx with h | h
    · subst h
      have h1 : b >>> 1 < 2 ^ 8 := by
        have hb : b < 2 ^ 8 := hv b (by simp)
        have := SM4.shiftRight_lt_two_pow (k := 1) hb
        omega
      have h2 : carry <<< 7 < 2 ^ 8 := by
        rw [Nat.shiftLeft_eq]
        omega
      exact Nat.or_lt_two_pow h1 h2
    · exact ih (b &&& 1) (and_one_le b) (fun z hz => hv z (by simp [hz])) x h

theorem vstep_bytes_lt {v : List Nat} (hv : ∀ x ∈ v, x < 256) :
    ∀ x ∈ vstep v, x < 256 := by
  have hbase := shiftRightOne_bytes_lt 0 (by omega) hv
  simp only [vstep]
  split
  · cases h : (shiftRightOne 0 v).1 with
    | nil => simp
    | cons b rest =>
      rw [h] at hbase
      intro x hx
      rcases List.mem_cons.mp hx with h2 | h2
      · subst h2
        have hb : b < 2 ^ 8 := hbase b (by simp)
        have : (0xE1 : Nat) < 2 ^ 8 := by norm_num
        exact Nat.xor_lt_two_pow hb this
      · exact hbase x (by simp [h2])
  · exact hbase

theorem vstep_zero16 : vstep zero16 = zero16 := by decide

theorem iterate_vstep_length {v : List Nat} (h : v.length = 16) (k : Nat) :
    (vstep^[k] v).length = 16 := by
  induction k generalizing v with
  | zero => exact h
  | succ k ih =>
    rw [Function.iterate_succ_apply]
    exact ih (by rw [vstep_length, h])

theorem iterate_vstep_bytes_lt {v : List Nat} (h : ∀ x ∈ v, x < 256) (k : Nat) :
    ∀ x ∈ vstep^[k] v, x < 256 := by
  induction k generalizing v with
  | zero => exact h
  | succ k ih =>
    rw [Function.iterate_succ_apply]
    exact ih (vstep_bytes_lt h)

theorem iterate_vstep_zero16 (k : Nat) : vstep^[k] zero16 = zero16 := by
  induction k with
  | zero => rfl
  | succ k ih => rw [Function.iterate_succ_apply, vstep_zero16, ih]

theorem iterate_vstep_linear (k : Nat) {u v : List Nat} (hul : u.length = 16)
    (hvl : v.length = 16) (hu : ∀ x ∈ u, x < 256) (hv : ∀ x ∈ v, x < 256) :
    vstep^[k] (vxor u v) = vxor (vstep^[k] u) (vstep^[k] v) := by
  induction k generalizing u v with
  | zero => rfl
  | succ k ih =>
    rw [Function.iterate_succ_apply, Function.iterate_succ_apply,
      Function.iterate_succ_apply, vstep_linear hul hvl hu hv]
    exact ih (by rw [vstep_length, hul]) (by rw [vstep_length, hvl])
      (vstep_bytes_lt hu) (vstep_bytes_lt hv)

end SM4_GCM

namespace SM4_GCM

theorem mulTerm_length {x y : List Nat} (hy : y.length = 16) (i : Nat) :
    (mulTerm x y i).length = 16 := by
  rw [mulTerm]
  split
  · exact iterate_vstep_length hy i
  · simp [zero16]

theorem gfmul_go (x y : List Nat) (hy : y.length = 16) (n : Nat) :
    (List.range n).foldl (fun (zv : List Nat × List Nat) i =>
      let z := if x.getD (i / 8) 0 &&& (1 <<< (7 - i % 8)) ≠ 0 then vxor zv.1 zv.2 else zv.1
      (z, vstep zv.2)) (zero16, y) =
    (bigXor ((List.range n).map (mulTerm x y)), vstep^[n] y) := by
  induction n with
  | zero => rfl
  | succ n ih =>
    rw [List.range_succ, List.foldl_append, ih, List.map_append, bigXor_append
      (by intro v hv
          rw [List.mem_map] at hv
          obtain ⟨i, _, rfl⟩ := hv
          exact mulTerm_length hy i)
      (by intro v hv
          rw [List.map_cons, List.map_nil] at hv
          rcases List.mem_singleton.mp hv with rfl
          exact mulTerm_length hy n)]
    simp only [List.foldl_cons, List.foldl_nil, List.map_cons, List.map_nil]
    have hslen : (bigXor ((List.range n).map (mulTerm x y))).length = 16 := by
      apply bigXor_length
      intro v hv
      rw [List.mem_map] at hv
      obtain ⟨i, _, rfl⟩ := hv
      exact mulTerm_length hy i
    have hterm : bigXor [mulTerm x y n] = mulTerm x y n := by
      rw [bigXor_cons, bigXor_nil, vxor_zero_right (mulTerm_length hy n)]
    rw [hterm]
    refine Prod.ext ?_ ?_
    · show (if x.getD (n / 8) 0 &&& (1 <<< (7 - n % 8)) ≠ 0 then
        vxor (bigXor ((List.range n).map (mulTerm x y))) (vstep^[n] y)
        else bigXor ((List.range n).map (mulTerm x y))) = _
      rw [mulTerm]
      split
      · rfl
      · exact (vxor_zero_right hslen).symm
    · show vstep (vstep^[n] y) = vstep^[n + 1] y
      rw [Function.iterate_succ_apply']

theorem gfmul_eq_sum (x y : List Nat) (hy : y.length = 16) :
    gfmul x y = bigXor ((List.range 128).map (mulTerm x y)) := by
  rw [gfmul]
  rw [show List.replicate 16 0 = zero16 from rfl]
  rw [gfmul_go x y hy 128]

end SM4_GCM

namespace SM4_GCM

theorem vxor_getD {a b : List Nat} (ha : a.length = 16) (hb : b.length = 16) {k : Nat}
    (hk : k < 16) : (vxor a b).getD k 0 = a.getD k 0 ^^^ b.getD k 0 := by
  rw [List.getD_eq_getElem?_getD, List.getD_eq_getElem?_getD, List.getD_eq_getElem?_getD]
  rw [show vxor a b = List.zipWith (fun x y => x ^^^ y) a b from rfl, List.getElem?_zipWith]
  rw [List.getElem?_eq_getElem (by omega), List.getElem?_eq_getElem (by omega)]
  rfl

theorem bigXor_getD {l : List (List Nat)} (h : ∀ v ∈ l, v.length = 16) {k : Nat}
    (hk : k < 16) :
    (bigXor l).getD k 0 = (l.map (fun v => v.getD k 0)).foldr (fun a b => a ^^^ b) 0 := by
  induction l with
  | nil =>
    simp only [bigXor_nil, List.map_nil, List.foldr_nil, zero16, List.getD_eq_getElem?_getD,
      List.getElem?_replicate]
    split <;> rfl
  | cons v l ih =>
    rw [bigXor_cons, vxor_getD (h v (by simp)) (bigXor_length (fun w hw => h w (by simp [hw]))) hk,
      List.map_cons, List.foldr_cons, ih (fun w hw => h w (by simp [hw]))]

end SM4_GCM

namespace SM4_GCM

set_option maxRecDepth 8192 in
theorem vstep_unitVec : ∀ j, j < 127 → vstep (unitVec j) = unitVec (j + 1) := by decide

theorem unitVec_zero : unitVec 0 = e0 := by decide

set_option maxRecDepth 8192 in
theorem unitVec_bytes_lt : ∀ j, j < 128 → ∀ b ∈ unitVec j, b < 256 := by decide

theorem unitVec_length (j : Nat) : (unitVec j).length = 16 := by
  simp [unitVec]

theorem iterate_vstep_e0 : ∀ j, j < 128 → vstep^[j] e0 = unitVec j := by
  intro j
  induction j with
  | zero => intro _; rw [Function.iterate_zero_apply, unitVec_zero]
  | succ j ih =>
    intro hj
    rw [Function.iterate_succ_apply', ih (by omega), vstep_unitVec j (by omega)]

theorem foldr_xor_zero {g : Nat → Nat} : ∀ (l : List Nat), (∀ j ∈ l, g j = 0) →
    ∀ z : Nat, (l.map g).foldr (fun a b => a ^^^ b) z = z := by
  intro l
  induction l with
  | nil => intro _ z; rfl
  | cons a l ih =>
    intro h z
    rw [List.map_cons, List.foldr_cons, ih (fun j hj => h j (by simp [hj])), h a (by simp)]
    simp

set_option maxRecDepth 4096 in
theorem byte_bit_decomp : ∀ b, b < 256 →
    ((List.range 8).map (fun t => if b &&& (1 <<< (7 - t)) ≠ 0 then 1 <<< (7 - t) else 0)).foldr
      (fun a b => a ^^^ b) 0 = b := by decide

end SM4_GCM

namespace SM4_GCM

theorem foldr_xor_window (g : Nat → Nat) (k : Nat) (hk : k < 16)
    (h0 : ∀ j, j / 8 ≠ k → g j = 0) :
    ((List.range 128).map g).foldr (fun a b => a ^^^ b) 0 =
      ((List.range 8).map (fun t => g (8 * k + t))).foldr (fun a b => a ^^^ b) 0 := by
  have hsplit : (128 : Nat) = 8 * k + (8 + (120 - 8 * k)) := by omega
  rw [hsplit, List.range_add, List.range_add]
  simp only [List.map_append, List.map_map, List.foldr_append, Function.comp_def]
  have hC : (((List.range (120 - 8 * k)).map (fun t => g (8 * k + (8 + t)))).foldr
      (fun a b => a ^^^ b) 0) = 0 := by
    have := foldr_xor_zero (g := g) ((List.range (120 - 8 * k)).map fun t => 8 * k + (8 + t))
      (by intro j hj
          rw [List.mem_map] at hj
          obtain ⟨t, _, rfl⟩ := hj
          apply h0
          omega) 0
    rw [List.map_map] at this
    exact this
  rw [hC]
  exact foldr_xor_zero (List.range (8 * k))
    (by intro j hj
        rw [List.mem_range] at hj
        apply h0
        omega) _

end SM4_GCM

namespace SM4_GCM

theorem zero16_getD (k : Nat) : zero16.getD k 0 = 0 := by
  rw [zero16, List.getD_eq_getElem?_getD, List.getElem?_replicate]
  split <;> rfl

theorem set_getD_self {k v : Nat} (hk : k < 16) :
    ((List.replicate 16 (0 : Nat)).set k v).getD k 0 = v := by
  rw [List.getD_eq_getElem?_getD, List.getElem?_set_self (by simpa using hk)]
  rfl

theorem set_getD_ne {i k v : Nat} (h : i ≠ k) :
    ((List.replicate 16 (0 : Nat)).set i v).getD k 0 = 0 := by
  rw [List.getD_eq_getElem?_getD, List.getElem?_set_ne h, List.getElem?_replicate]
  split <;> rfl

theorem getD_eq_getElem16 {l : List Nat} {k : Nat} (h : k < l.length) :
    l.getD k 0 = l[k] := by
  rw [List.getD_eq_getElem?_getD, List.getElem?_eq_getElem h, Option.getD_some]

theorem decomp (y : List Nat) (hy : y.length = 16) (hb : ∀ x ∈ y, x < 256) :
    y = bigXor ((List.range 128).map fun j =>
      if y.getD (j / 8) 0 &&& (1 <<< (7 - j % 8)) ≠ 0 then unitVec j else zero16) := by
  have hterm16 : ∀ v ∈ (List.range 128).map (fun j =>
      if y.getD (j / 8) 0 &&& (1 <<< (7 - j % 8)) ≠ 0 then unitVec j else zero16),
      v.length = 16 := by
    intro v hv
    rw [List.mem_map] at hv
    obtain ⟨j, _, rfl⟩ := hv
    split
    · exact unitVec_length j
    · simp [zero16]
  apply List.ext_getElem (by rw [hy, bigXor_length hterm16])
  intro k hk1 hk2
  have hk : k < 16 := by rw [hy] at hk1; exact hk1
  rw [← getD_eq_getElem16 hk1, ← getD_eq_getElem16 hk2]
  rw [bigXor_getD hterm16 hk, List.map_map]
  have hintro : ((List.range 128).map ((fun v => v.getD k 0) ∘ (fun j =>
      if y.getD (j / 8) 0 &&& (1 <<< (7 - j % 8)) ≠ 0 then unitVec j else zero16))).foldr
        (fun a b => a ^^^ b) 0 =
      ((List.range 8).map (fun t => ((fun v => v.getD k 0) ∘ (fun j =>
        if y.getD (j / 8) 0 &&& (1 <<< (7 - j % 8)) ≠ 0 then unitVec j else zero16))
        (8 * k + t))).foldr (fun a b => a ^^^ b) 0 := by
    apply foldr_xor_window _ k hk
    intro j hj
    simp only [Function.comp_def]
    split
    · rw [unitVec, set_getD_ne hj]
    · exact zero16_getD k
  rw [hintro]
  have hmid : ((List.range 8).map (fun t => ((fun v => v.getD k 0) ∘ (fun j =>
      if y.getD (j / 8) 0 &&& (1 <<< (7 - j % 8)) ≠ 0 then unitVec j else zero16))
      (8 * k + t))) =
      (List.range 8).map (fun t => if y.getD k 0 &&& (1 <<< (7 - t)) ≠ 0
        then 1 <<< (7 - t) else 0) := by
    apply List.map_congr_left
    intro t ht
    rw [List.mem_range] at ht
    simp only [Function.comp_def]
    have hdiv : (8 * k + t) / 8 = k := by omega
    have hmod : (8 * k + t) % 8 = t := by omega
    rw [hdiv, hmod]
    split
    · rw [unitVec, hdiv, hmod, set_getD_self hk]
    · exact zero16_getD k
  rw [hmid]
  exact (byte_bit_decomp (y.getD k 0) (by
    have := hb (y.getD k 0) (by
      rw [getD_eq_getElem16 hk1]
      exact List.getElem_mem _)
    exact this)).symm

end SM4_GCM

namespace SM4_GCM

theorem iterate_vstep_bigXor (k : Nat) (l : List (List Nat))
    (hlen : ∀ v ∈ l, v.length = 16) (hbytes : ∀ v ∈ l, ∀ x ∈ v, x < 256) :
    vstep^[k] (bigXor l) = bigXor (l.map (vstep^[k])) := by
  induction l with
  | nil =>
    simp only [bigXor_nil, List.map_nil]
    exact iterate_vstep_zero16 k
  | cons v l ih =>
    rw [bigXor_cons, iterate_vstep_linear k (hlen v (by simp))
      (bigXor_length (fun w hw => hlen w (by simp [hw])))
      (hbytes v (by simp)) (bigXor_bytes_lt (fun w hw => hbytes w (by simp [hw]))),
      List.map_cons, bigXor_cons,
      ih (fun w hw => hlen w (by simp [hw])) (fun w hw => hbytes w (by simp [hw]))]

theorem gfmul_double_sum (u v : List Nat) (hu : u.length = 16) (hv : v.length = 16)
    (hbu : ∀ b ∈ u, b < 256) (hbv : ∀ b ∈ v, b < 256) :
    gfmul u v = bigXor ((List.range 128).map fun i => bigXor ((List.range 128).map fun j =>
      if u.getD (i / 8) 0 &&& (1 <<< (7 - i % 8)) ≠ 0 ∧
         v.getD (j / 8) 0 &&& (1 <<< (7 - j % 8)) ≠ 0
      then vstep^[i + j] e0 else zero16)) := by
  rw [gfmul_eq_sum u v hv]
  congr 1
  apply List.map_congr_left
  intro i hi
  rw [List.mem_range] at hi
  rw [mulTerm]
  by_cases hbit : u.getD (i / 8) 0 &&& (1 <<< (7 - i % 8)) ≠ 0
  · rw [if_pos hbit]
    conv_lhs => rw [decomp v hv hbv]
    rw [iterate_vstep_bigXor i _
      (by intro w hw
          rw [List.mem_map] at hw
          obtain ⟨j, _, rfl⟩ := hw
          split
          · exact unitVec_length j
          · simp [zero16])
      (by intro w hw
          rw [List.mem_map] at hw
          obtain ⟨j, hj, rfl⟩ := hw
          rw [List.mem_range] at hj
          split
          · exact unitVec_bytes_lt j hj
          · intro x hx
            rw [zero16] at hx
            rcases List.eq_of_mem_replicate hx with rfl
            norm_num)]
    rw [List.map_map]
    congr 1
    apply List.map_congr_left
    intro j hj
    rw [List.mem_range] at hj
    simp only [Function.comp_def]
    by_cases hbj : v.getD (j / 8) 0 &&& (1 <<< (7 - j % 8)) ≠ 0
    · rw [if_pos hbj, if_pos ⟨hbit, hbj⟩, ← iterate_vstep_e0 j hj,
        ← Function.iterate_add_apply]
    · rw [if_neg hbj, if_neg (fun hc => hbj hc.2), iterate_vstep_zero16]
  · rw [if_neg hbit]
    have hall : ((List.range 128).map fun j =>
        if u.getD (i / 8) 0 &&& (1 <<< (7 - i % 8)) ≠ 0 ∧
           v.getD (j / 8) 0 &&& (1 <<< (7 - j % 8)) ≠ 0
        then vstep^[i + j] e0 else zero16) = (List.range 128).map fun _ => zero16 := by
      apply List.map_congr_left
      intro j _
      rw [if_neg (fun hc => hbit hc.1)]
    rw [hall, bigXor_all_zero]

theorem gfmul_comm_core (x y : List Nat) (hx : x.length = 16) (hy : y.length = 16)
    (hbx : ∀ b ∈ x, b < 256) (hby : ∀ b ∈ y, b < 256) : gfmul x y = gfmul y x := by
  rw [gfmul_double_sum x y hx hy hbx hby, gfmul_double_sum y x hy hx hby hbx]
  rw [bigXor_swap (List.range 128) (List.range 128) _
    (by intro a _ b _
        split
        · exact iterate_vstep_length (by simp [e0]) _
        · simp [zero16])]
  congr 1
  apply List.map_congr_left
  intro j _
  congr 1
  apply List.map_congr_left
  intro i _
  rw [Nat.add_comm i j]
  congr 1
  exact propext ⟨fun h => ⟨h.2, h.1⟩, fun h => ⟨h.2, h.1⟩⟩

end SM4_GCM
/-- C1: for every 16-byte key K and every 16-byte block B, after `setKey(K)`
(which stores the `keyExpansion` round keys) each implemented backend —
TTable, AESNI, and ModernISA with the capability flag either set or unset —
satisfies `decrypt(encrypt(B)) = B`. -/
theorem claim_C1_roundtrip (key : List Nat) (avx : Bool)
    (p0 p1 p2 p3 p4 p5 p6 p7 p8 p9 p10 p11 p12 p13 p14 p15 : Nat)
    (hb : ∀ x ∈ [p0, p1, p2, p3, p4, p5, p6, p7, p8, p9, p10, p11, p12, p13, p14, p15],
      x < 256) :
    SM4.TTable.decrypt (SM4.keyExpansion key) (SM4.TTable.encrypt (SM4.keyExpansion key)
        [p0, p1, p2, p3, p4, p5, p6, p7, p8, p9, p10, p11, p12, p13, p14, p15]) =
      [p0, p1, p2, p3, p4, p5, p6, p7, p8, p9, p10, p11, p12, p13, p14, p15] ∧
    SM4.AESNI.decrypt (SM4.keyExpansion key) (SM4.AESNI.encrypt (SM4.keyExpansion key)
        [p0, p1, p2, p3, p4, p5, p6, p7, p8, p9, p10, p11, p12, p13, p14, p15]) =
      [p0, p1, p2, p3, p4, p5, p6, p7, p8, p9, p10, p11, p12, p13, p14, p15] ∧
    SM4.ModernISA.decrypt avx (SM4.keyExpansion key) (SM4.ModernISA.encrypt avx
        (SM4.keyExpansion key)
        [p0, p1, p2, p3, p4, p5, p6, p7, p8, p9, p10, p11, p12, p13, p14, p15]) =
      [p0, p1, p2, p3, p4, p5, p6, p7, p8, p9, p10, p11, p12, p13, p14, p15] :=
  ⟨SM4.cipher_roundtrip SM4.feistelFunction_lt (SM4.keyExpansion key)
      p0 p1 p2 p3 p4 p5 p6 p7 p8 p9 p10 p11 p12 p13 p14 p15 hb,
   SM4.cipher_roundtrip SM4.feistelScalar_lt (SM4.keyExpansion key)
      p0 p1 p2 p3 p4 p5 p6 p7 p8 p9 p10 p11 p12 p13 p14 p15 hb,
   SM4.cipher_roundtrip (SM4.feistelDispatch_lt avx) (SM4.keyExpansion key)
      p0 p1 p2 p3 p4 p5 p6 p7 p8 p9 p10 p11 p12 p13 p14 p15 hb⟩

/-- Witness for C1 at a concrete key and block. -/
theorem claim_C1_roundtrip_witness :
    (∀ x ∈ [0, 1, 2, 3, 4, 5, 6, 7, 8, 9, 10, 11, 12, 13, 14, 255], (x : Nat) < 256) ∧
    (SM4.TTable.decrypt (SM4.keyExpansion [1, 2, 3]) (SM4.TTable.encrypt
        (SM4.keyExpansion [1, 2, 3]) [0, 1, 2, 3, 4, 5, 6, 7, 8, 9, 10, 11, 12, 13, 14, 255]) =
      [0, 1, 2, 3, 4, 5, 6, 7, 8, 9, 10, 11, 12, 13, 14, 255] ∧
    SM4.AESNI.decrypt (SM4.keyExpansion [1, 2, 3]) (SM4.AESNI.encrypt
        (SM4.keyExpansion [1, 2, 3]) [0, 1, 2, 3, 4, 5, 6, 7, 8, 9, 10, 11, 12, 13, 14, 255]) =
      [0, 1, 2, 3, 4, 5, 6, 7, 8, 9, 10, 11, 12, 13, 14, 255] ∧
    SM4.ModernISA.decrypt true (SM4.keyExpansion [1, 2, 3]) (SM4.ModernISA.encrypt true
        (SM4.keyExpansion [1, 2, 3]) [0, 1, 2, 3, 4, 5, 6, 7, 8, 9, 10, 11, 12, 13, 14, 255]) =
      [0, 1, 2, 3, 4, 5, 6, 7, 8, 9, 10, 11, 12, 13, 14, 255]) :=
  ⟨by decide, claim_C1_roundtrip [1, 2, 3] true 0 1 2 3 4 5 6 7 8 9 10 11 12 13 14 255
    (by decide)⟩
/-- C2: for every round-key schedule and block, the TTable, AESNI and
ModernISA backends (the latter with the capability flag set or unset)
produce byte-identical encrypt output, and the fused T-table round
function `T0[b0] ^ T1[b1] ^ T2[b2] ^ T3[b3]` equals applying the S-box to
each byte of the round input word followed by `linearTransform`. -/
theorem claim_C2_backend_equivalence :
    (∀ rks pt : List Nat, SM4.TTable.encrypt rks pt = SM4.AESNI.encrypt rks pt) ∧
    (∀ (avx : Bool) (rks pt : List Nat),
      SM4.ModernISA.encrypt avx rks pt = SM4.AESNI.encrypt rks pt) ∧
    (∀ w : Nat, SM4.TTable.feistelFunction w =
      SM4.linearTransform (SM4.substituteWord w)) := by
  have hT : SM4.TTable.feistelFunction = SM4.AESNI.feistelScalar :=
    funext fun w => SM4.feistelFunction_eq_scalar w
  have hM : ∀ avx : Bool, SM4.ModernISA.feistelDispatch avx = SM4.AESNI.feistelScalar :=
    fun avx => funext fun w => SM4.feistelDispatch_eq_scalar avx w
  refine ⟨?_, ?_, SM4.feistelFunction_eq_scalar⟩
  · intro rks pt
    rw [SM4.TTable.encrypt, SM4.AESNI.encrypt, hT]
  · intro avx rks pt
    rw [SM4.ModernISA.encrypt, SM4.AESNI.encrypt, hM avx]

/-- C3: the known-answer vector: key = plaintext =
0123456789abcdeffedcba9876543210 (hex) encrypts to
681edf34d206965e86b3e94f536e4246 under every implemented backend. -/
theorem claim_C3_known_answer :
    SM4.TTable.encrypt (SM4.keyExpansion
        [0x01, 0x23, 0x45, 0x67, 0x89, 0xab, 0xcd, 0xef,
         0xfe, 0xdc, 0xba, 0x98, 0x76, 0x54, 0x32, 0x10])
        [0x01, 0x23, 0x45, 0x67, 0x89, 0xab, 0xcd, 0xef,
         0xfe, 0xdc, 0xba, 0x98, 0x76, 0x54, 0x32, 0x10] =
      [0x68, 0x1e, 0xdf, 0x34, 0xd2, 0x06, 0x96, 0x5e,
       0x86, 0xb3, 0xe9, 0x4f, 0x53, 0x6e, 0x42, 0x46] ∧
    SM4.AESNI.encrypt (SM4.keyExpansion
        [0x01, 0x23, 0x45, 0x67, 0x89, 0xab, 0xcd, 0xef,
         0xfe, 0xdc, 0xba, 0x98, 0x76, 0x54, 0x32, 0x10])
        [0x01, 0x23, 0x45, 0x67, 0x89, 0xab, 0xcd, 0xef,
         0xfe, 0xdc, 0xba, 0x98, 0x76, 0x54, 0x32, 0x10] =
      [0x68, 0x1e, 0xdf, 0x34, 0xd2, 0x06, 0x96, 0x5e,
       0x86, 0xb3, 0xe9, 0x4f, 0x53, 0x6e, 0x42, 0x46] ∧
    SM4.ModernISA.encrypt true (SM4.keyExpansion
        [0x01, 0x23, 0x45, 0x67, 0x89, 0xab, 0xcd, 0xef,
         0xfe, 0xdc, 0xba, 0x98, 0x76, 0x54, 0x32, 0x10])
        [0x01, 0x23, 0x45, 0x67, 0x89, 0xab, 0xcd, 0xef,
         0xfe, 0xdc, 0xba, 0x98, 0x76, 0x54, 0x32, 0x10] =
      [0x68, 0x1e, 0xdf, 0x34, 0xd2, 0x06, 0x96, 0x5e,
       0x86, 0xb3, 0xe9, 0x4f, 0x53, 0x6e, 0x42, 0x46] ∧
    SM4.ModernISA.encrypt false (SM4.keyExpansion
        [0x01, 0x23, 0x45, 0x67, 0x89, 0xab, 0xcd, 0xef,
         0xfe, 0xdc, 0xba, 0x98, 0x76, 0x54, 0x32, 0x10])
        [0x01, 0x23, 0x45, 0x67, 0x89, 0xab, 0xcd, 0xef,
         0xfe, 0xdc, 0xba, 0x98, 0x76, 0x54, 0x32, 0x10] =
      [0x68, 0x1e, 0xdf, 0x34, 0xd2, 0x06, 0x96, 0x5e,
       0x86, 0xb3, 0xe9, 0x4f, 0x53, 0x6e, 0x42, 0x46] := by
  refine ⟨by decide, by decide, by decide, by decide⟩

/-- C6: for every capability setting, round-key schedule and block list,
`encryptBlocks` (and `decryptBlocks`) equals the element-wise map of the
single-block `encrypt` (`decrypt`) in input order. -/
theorem claim_C6_batch_equivalence (avx : Bool) (rks : List Nat)
    (blocks : List (List Nat)) :
    SM4.ModernISA.encryptBlocks avx rks blocks =
      blocks.map (SM4.ModernISA.encrypt avx rks) ∧
    SM4.ModernISA.decryptBlocks avx rks blocks =
      blocks.map (SM4.ModernISA.decrypt avx rks) := by
  constructor
  · rw [SM4.ModernISA.encryptBlocks]
    split
    · next h =>
      rw [SM4.encryptBlocksLoop_eq, h.1]
    · rfl
  · rw [SM4.ModernISA.decryptBlocks]
    split
    · next h =>
      rw [SM4.decryptBlocksLoop_eq, h.1]
    · rfl

/-- C7: the bit-serial GF(2^128) multiplication `gfmul` (reduction
constant 0xE1 on the top byte) is commutative on 16-byte operands. -/
theorem claim_C7_gfmul_comm (x y : List Nat) (hx : x.length = 16) (hy : y.length = 16)
    (hbx : ∀ b ∈ x, b < 256) (hby : ∀ b ∈ y, b < 256) :
    SM4_GCM.gfmul x y = SM4_GCM.gfmul y x :=
  SM4_GCM.gfmul_comm_core x y hx hy hbx hby

/-- Witness for C7 at concrete operands. -/
theorem claim_C7_gfmul_comm_witness :
    ([1, 2, 3, 4, 5, 6, 7, 8, 9, 10, 11, 12, 13, 14, 15, 16] : List Nat).length = 16 ∧
    ([255, 0, 17, 34, 51, 68, 85, 102, 119, 136, 153, 170, 187, 204, 221, 238] :
      List Nat).length = 16 ∧
    SM4_GCM.gfmul [1, 2, 3, 4, 5, 6, 7, 8, 9, 10, 11, 12, 13, 14, 15, 16]
        [255, 0, 17, 34, 51, 68, 85, 102, 119, 136, 153, 170, 187, 204, 221, 238] =
      SM4_GCM.gfmul [255, 0, 17, 34, 51, 68, 85, 102, 119, 136, 153, 170, 187, 204, 221, 238]
        [1, 2, 3, 4, 5, 6, 7, 8, 9, 10, 11, 12, 13, 14, 15, 16] :=
  ⟨by decide, by decide,
   claim_C7_gfmul_comm _ _ (by decide) (by decide) (by decide) (by decide)⟩
/-- C4: after setKey, setIV (nonempty IV of any length) and setAAD, GCM
encrypt succeeds, the ciphertext has the plaintext's length, the tag has
`tagLen` bytes (for `tagLen ≤ 16`), and decrypt of that ciphertext and tag
under the same session state returns exactly the plaintext. -/
theorem claim_C4_gcm_roundtrip (s0 : SM4_GCM) (key ivdata aaddata pt : List Nat)
    (tagLen : Nat) (hiv : ivdata ≠ []) (htl : tagLen ≤ 16) :
    ∃ ct tag,
      SM4_GCM.encrypt (SM4_GCM.setAAD (SM4_GCM.setIV (SM4_GCM.setKey s0 key) ivdata)
        aaddata) pt tagLen = some (ct, tag) ∧
      ct.length = pt.length ∧ tag.length = tagLen ∧
      SM4_GCM.decrypt (SM4_GCM.setAAD (SM4_GCM.setIV (SM4_GCM.setKey s0 key) ivdata)
        aaddata) ct tag tagLen = some pt :=
  SM4_GCM.gcm_roundtrip _ pt tagLen hiv htl

/-- Witness for C4 at a concrete session: 3-byte non-12-byte IV, nonempty
AAD, 5-byte plaintext, 4-byte tag. -/
theorem claim_C4_gcm_roundtrip_witness :
    ([9, 9, 9] : List Nat) ≠ [] ∧ (4 : Nat) ≤ 16 ∧
    (∃ ct tag,
      SM4_GCM.encrypt (SM4_GCM.setAAD (SM4_GCM.setIV (SM4_GCM.setKey ⟨[], 0, 0, [], []⟩
        [1, 2, 3, 4, 5, 6, 7, 8, 9, 10, 11, 12, 13, 14, 15, 16]) [9, 9, 9]) [7, 7])
        [10, 20, 30, 40, 50] 4 = some (ct, tag) ∧
      ct.length = ([10, 20, 30, 40, 50] : List Nat).length ∧ tag.length = 4 ∧
      SM4_GCM.decrypt (SM4_GCM.setAAD (SM4_GCM.setIV (SM4_GCM.setKey ⟨[], 0, 0, [], []⟩
        [1, 2, 3, 4, 5, 6, 7, 8, 9, 10, 11, 12, 13, 14, 15, 16]) [9, 9, 9]) [7, 7])
        ct tag 4 = some [10, 20, 30, 40, 50]) :=
  ⟨by decide, by decide,
   claim_C4_gcm_roundtrip ⟨[], 0, 0, [], []⟩
     [1, 2, 3, 4, 5, 6, 7, 8, 9, 10, 11, 12, 13, 14, 15, 16] [9, 9, 9] [7, 7]
     [10, 20, 30, 40, 50] 4 (by decide) (by decide)⟩

/-- C5: whenever decrypt runs with an IV set and the supplied tag differs
from the recomputed expected tag at some position below
`min(tagLen, 16)`, decrypt returns the authentication failure and produces
no plaintext (the counter-mode decryption branch is never reached). -/
theorem claim_C5_auth_failure (s : SM4_GCM) (ct tag : List Nat) (tagLen i : Nat)
    (hiv : s.iv ≠ []) (hi : i < min tagLen 16)
    (hne : tag.getD i 0 ≠ (SM4_GCM.expectedTag s ct).getD i 0) :
    SM4_GCM.decrypt s ct tag tagLen = none :=
  SM4_GCM.auth_failure s ct tag tagLen i hiv hi (fun h => hne h.symm)

/-- Witness for C5: a zeroed session with IV [0]; the expected first tag
byte is 118, the supplied tag byte is 7. -/
theorem claim_C5_auth_failure_witness :
    ((⟨List.replicate 32 0, 0, 0, [0], []⟩ : SM4_GCM).iv ≠ []) ∧ (0 : Nat) < min 1 16 ∧
    (([7] : List Nat).getD 0 0 ≠
      (SM4_GCM.expectedTag ⟨List.replicate 32 0, 0, 0, [0], []⟩ []).getD 0 0) ∧
    SM4_GCM.decrypt ⟨List.replicate 32 0, 0, 0, [0], []⟩ [] [7] 1 = none :=
  ⟨by decide, by decide, by decide,
   claim_C5_auth_failure ⟨List.replicate 32 0, 0, 0, [0], []⟩ [] [7] 1 0
     (by decide) (by decide) (by decide)⟩

/-- C8: setIV and setAAD replace the stored buffers (they do not append),
leave the other buffer untouched, and the stored values are what the next
encrypt consumes. -/
theorem claim_C8_replace_semantics (s : SM4_GCM) (d1 d2 a1 a2 pt : List Nat)
    (tagLen : Nat) :
    SM4_GCM.setIV (SM4_GCM.setIV s d1) d2 = SM4_GCM.setIV s d2 ∧
    SM4_GCM.setAAD (SM4_GCM.setAAD s a1) a2 = SM4_GCM.setAAD s a2 ∧
    (SM4_GCM.setIV s d1).iv = d1 ∧ (SM4_GCM.setAAD s a1).aad = a1 ∧
    (SM4_GCM.setIV s d1).aad = s.aad ∧ (SM4_GCM.setAAD s a1).iv = s.iv ∧
    SM4_GCM.encrypt (SM4_GCM.setIV (SM4_GCM.setIV s d1) d2) pt tagLen =
      SM4_GCM.encrypt (SM4_GCM.setIV s d2) pt tagLen :=
  ⟨rfl, rfl, rfl, rfl, rfl, rfl, rfl⟩

/-- C9: after setIV with a nonempty IV followed by clear(), the stored IV
is the all-zero buffer of the ORIGINAL length (clear overwrites contents
but keeps lengths), so a subsequent encrypt passes the missing-IV check
and succeeds. -/
theorem claim_C9_clear_keeps_iv_length (s : SM4_GCM) (ivdata pt : List Nat)
    (tagLen : Nat) (hiv : ivdata ≠ []) :
    (SM4_GCM.clear (SM4_GCM.setIV s ivdata)).iv = List.replicate ivdata.length 0 ∧
    (SM4_GCM.encrypt (SM4_GCM.clear (SM4_GCM.setIV s ivdata)) pt tagLen).isSome = true := by
  constructor
  · exact SM4_GCM.clear_iv (SM4_GCM.setIV s ivdata)
  · exact SM4_GCM.clear_encrypt_isSome (SM4_GCM.setIV s ivdata) pt tagLen hiv

/-- Witness for C9 at a concrete state. -/
theorem claim_C9_clear_keeps_iv_length_witness :
    (([5, 6] : List Nat) ≠ []) ∧
    ((SM4_GCM.clear (SM4_GCM.setIV ⟨[], 0, 0, [], []⟩ [5, 6])).iv =
      List.replicate ([5, 6] : List Nat).length 0 ∧
    (SM4_GCM.encrypt (SM4_GCM.clear (SM4_GCM.setIV ⟨[], 0, 0, [], []⟩ [5, 6])) [] 0).isSome =
      true) :=
  ⟨by decide, claim_C9_clear_keeps_iv_length ⟨[], 0, 0, [], []⟩ [5, 6] [] 0 (by decide)⟩

/-- C10: with an IV set and tagLength 0, the tag comparison loop is empty,
so decrypt succeeds for every supplied tag and returns the counter-mode
decryption of the ciphertext. -/
theorem claim_C10_tagLen_zero (s : SM4_GCM) (ct tag tag2 : List Nat) (hiv : s.iv ≠ []) :
    SM4_GCM.decrypt s ct tag 0 =
      some (List.zipWith (fun a b => a ^^^ b) ct (SM4_GCM.keystream s ct.length)) ∧
    SM4_GCM.decrypt s ct tag 0 = SM4_GCM.decrypt s ct tag2 0 := by
  refine ⟨SM4_GCM.decrypt_tagLen_zero s ct tag hiv, ?_⟩
  rw [SM4_GCM.decrypt_tagLen_zero s ct tag hiv, SM4_GCM.decrypt_tagLen_zero s ct tag2 hiv]

/-- Witness for C10 at a concrete state: two different supplied tags. -/
theorem claim_C10_tagLen_zero_witness :
    ((⟨List.replicate 32 0, 0, 0, [0], []⟩ : SM4_GCM).iv ≠ []) ∧
    (SM4_GCM.decrypt ⟨List.replicate 32 0, 0, 0, [0], []⟩ [1, 2] [9] 0 =
      some (List.zipWith (fun a b => a ^^^ b) [1, 2]
        (SM4_GCM.keystream ⟨List.replicate 32 0, 0, 0, [0], []⟩
          ([1, 2] : List Nat).length)) ∧
    SM4_GCM.decrypt ⟨List.replicate 32 0, 0, 0, [0], []⟩ [1, 2] [9] 0 =
      SM4_GCM.decrypt ⟨List.replicate 32 0, 0, 0, [0], []⟩ [1, 2] [250] 0) :=
  ⟨by decide, claim_C10_tagLen_zero ⟨List.replicate 32 0, 0, 0, [0], []⟩ [1, 2] [9] [250]
    (by decide)⟩
